/-
Verification of the bit/byte serialization engine of parquet-rs
(src/util/bit_util.rs and src/util/memory.rs), via a shallow embedding:
byte buffers are lists of naturals (each < 256), u64 arithmetic is Nat
arithmetic with explicit reductions modulo 2^64, i64 values are integers
converted through their unsigned 64-bit patterns, and every Rust assert!
is modeled as an explicit panic outcome.
-/
import Mathlib

set_option maxHeartbeats 1000000

namespace ParquetRS

/-- Outcome of a Rust computation that may hit a failed assert (panic). -/
inductive PRes (α : Type) where
  | panic : PRes α
  | ret : α → PRes α
deriving Repr, DecidableEq

/-- Little-endian value of a byte list: byte 0 is least significant. -/
def leNat : List Nat → Nat
  | [] => 0
  | b :: t => b + 256 * leNat t

/-- The n low-order little-endian bytes of a value (as memcpy_value reads
from a little-endian integer in memory). -/
def leBytes : Nat → Nat → List Nat
  | 0, _ => []
  | n + 1, v => v % 256 :: leBytes n (v / 256)

/-- Overwrite bytes of buf starting at off with bs (memcpy_value into
a slice buf[off..off+bs.length]). -/
def writeBytes (buf : List Nat) (off : Nat) (bs : List Nat) : List Nat :=
  buf.take off ++ bs ++ buf.drop (off + bs.length)

/-- Rust fn ceil(value, divisor) on i64: value/divisor rounded away from
zero for positive remainders (i64 division truncates toward zero). -/
def ceil (value divisor : Int) : Int :=
  let result := value.tdiv divisor
  if value.tmod divisor ≠ 0 then result + 1 else result

/-- ceil(x as i64, 8) as usize, as used for bit offsets (always nonneg). -/
def ceil8 (n : Nat) : Nat := (ceil n 8).toNat

/-- Rust fn trailing_bits(v, num_bits) on u64: the num_bits low bits of v.
The shift v << n is a u64 shift, hence the reduction mod 2^64. -/
def trailing_bits (v : Nat) (num_bits : Nat) : Nat :=
  if num_bits = 0 then 0
  else if 64 ≤ num_bits then v
  else
    let n := 64 - num_bits
    ((v <<< n) % 2 ^ 64) >>> n

/-- Unsigned 64-bit pattern of an i64 value (v as u64). -/
def toU64 (z : Int) : Nat := (z % (2 ^ 64 : Int)).toNat

/-- i64 value of an unsigned 64-bit pattern (u as i64). -/
def toI64 (n : Nat) : Int :=
  if n % 2 ^ 64 < 2 ^ 63 then ((n % 2 ^ 64 : Nat) : Int)
  else ((n % 2 ^ 64 : Nat) : Int) - 2 ^ 64

/-- Rust i64 shift v << 1 (wrapping at the 64-bit pattern level). -/
def i64_shl1 (v : Int) : Int := toI64 ((2 * toU64 v) % 2 ^ 64)

/-- Rust i64 arithmetic shift v >> 63: all sign bits, so -1 for negative
v and 0 otherwise (for v in the i64 range). -/
def i64_ashr63 (v : Int) : Int := if v < 0 then -1 else 0

/-- Rust i64 bitwise xor, via the unsigned patterns. -/
def i64_xor (a b : Int) : Int := toI64 (toU64 a ^^^ toU64 b)

/-- Rust i64 wrapping negation, via the unsigned pattern. -/
def i64_neg (a : Int) : Int := toI64 (toU64 (-a))

/-- BitWriter state: buffer is vec![u8], the rest mirrors the struct. -/
structure BitWriter where
  buffer : List Nat
  max_bytes : Nat
  buffered_values : Nat
  byte_offset : Nat
  bit_offset : Nat
deriving Repr, DecidableEq

/-- BitWriter::new(max_bytes): zero-filled buffer, all cursors at 0. -/
def BitWriter.new (max_bytes : Nat) : BitWriter :=
  { buffer := List.replicate max_bytes 0, max_bytes := max_bytes,
    buffered_values := 0, byte_offset := 0, bit_offset := 0 }

/-- BitWriter::flush: commit ceil(bit_offset/8) bytes of buffered_values
at byte_offset. Panics when the assert byte_offset + num_bytes <=
max_bytes fails or the memcpy target slice is too short. -/
def flush (w : BitWriter) : PRes BitWriter :=
  let num_bytes := ceil8 w.bit_offset
  if w.byte_offset + num_bytes ≤ w.max_bytes ∧ w.byte_offset + num_bytes ≤ w.buffer.length then
    .ret { buffer := writeBytes w.buffer w.byte_offset (leBytes num_bytes w.buffered_values),
           max_bytes := w.max_bytes, buffered_values := 0,
           byte_offset := w.byte_offset + num_bytes, bit_offset := 0 }
  else .panic

/-- BitWriter::consume: flush, truncate the buffer to byte_offset and
return it, resetting the writer to a fresh zero state. -/
def consume (w : BitWriter) : PRes (List Nat × BitWriter) :=
  match flush w with
  | .panic => .panic
  | .ret w1 => .ret (w1.buffer.take w1.byte_offset, BitWriter.new w1.max_bytes)

/-- BitWriter::skip(num_bytes): flush, then the source asserts
byte_offset < max_bytes (a panic when the buffer is exactly full),
then either errors when past the end or advances the byte cursor. -/
def skip (w : BitWriter) (num_bytes : Nat) : PRes (Except String Nat × BitWriter) :=
  match flush w with
  | .panic => .panic
  | .ret w1 =>
    if ¬ w1.byte_offset < w1.max_bytes then .panic
    else if w1.byte_offset + num_bytes > w1.max_bytes then
      .ret (.error "Not enough bytes left", w1)
    else
      .ret (.ok w1.byte_offset, { w1 with byte_offset := w1.byte_offset + num_bytes })

/-- BitWriter::put_value(v, num_bits): the two leading asserts are
panics; then bits are staged into buffered_values, with an 8-byte commit
when the 64-bit staging register fills. -/
def put_value (w : BitWriter) (v : Nat) (num_bits : Nat) : PRes (Bool × BitWriter) :=
  if ¬ num_bits ≤ 32 then .panic
  else if ¬ v >>> num_bits = 0 then .panic
  else if w.byte_offset * 8 + w.bit_offset + num_bits > w.max_bytes * 8 then .ret (false, w)
  else
    let bv := w.buffered_values ||| ((v <<< w.bit_offset) % 2 ^ 64)
    let bit1 := w.bit_offset + num_bits
    if 64 ≤ bit1 then
      if w.byte_offset + 8 ≤ w.buffer.length ∧ bit1 - 64 < 64 then
        .ret (true,
          { buffer := writeBytes w.buffer w.byte_offset (leBytes 8 bv),
            max_bytes := w.max_bytes,
            buffered_values := v >>> (num_bits - (bit1 - 64)),
            byte_offset := w.byte_offset + 8, bit_offset := bit1 - 64 })
      else .panic
    else
      .ret (true, { w with buffered_values := bv, bit_offset := bit1 })

/-- BitWriter::put_aligned(val, num_bytes): reserve via skip (which
flushes), then memcpy the num_bytes low bytes of val at the reserved
offset; a skip error becomes a false return. -/
def put_aligned (w : BitWriter) (val : Nat) (num_bytes : Nat) : PRes (Bool × BitWriter) :=
  match skip w num_bytes with
  | .panic => .panic
  | .ret (.error _, w1) => .ret (false, w1)
  | .ret (.ok offset, w1) =>
    .ret (true, { w1 with buffer := writeBytes w1.buffer offset (leBytes num_bytes val) })

/-- BitWriter::put_aligned_offset(val, num_bytes, offset): bounds check
against max_bytes, then memcpy at the absolute offset without touching
the cursor. The unreachable slice-out-of-range case is a panic. -/
def put_aligned_offset (w : BitWriter) (val num_bytes offset : Nat) : PRes (Bool × BitWriter) :=
  if num_bytes + offset > w.max_bytes then .ret (false, w)
  else if offset + num_bytes ≤ w.buffer.length then
    .ret (true, { w with buffer := writeBytes w.buffer offset (leBytes num_bytes val) })
  else .panic

/-- Helper for put_vlq_int termination: a nonzero masked value is at
least 128 (the mask 0xFFFFFFFFFFFFFF80 keeps bits 7..63). -/
theorem le_of_vlq_mask_ne {v : Nat} (h : v &&& 0xFFFFFFFFFFFFFF80 ≠ 0) : 128 ≤ v := by
  by_contra hlt
  apply h
  apply Nat.eq_of_testBit_eq
  intro i
  simp only [Nat.testBit_and, Nat.zero_testBit]
  have hmask : (0xFFFFFFFFFFFFFF80 : Nat) = (2 ^ 57 - 1) <<< 7 := by
    rw [Nat.shiftLeft_eq]
    norm_num
  rw [hmask, Nat.testBit_shiftLeft]
  rcases Nat.lt_or_ge i 7 with hi | hi
  · simp [Nat.not_le.mpr hi]
  · have : v < 2 ^ i := lt_of_lt_of_le (by omega) (Nat.pow_le_pow_right (by norm_num) hi)
    simp [Nat.testBit_lt_two_pow this]

/-- BitWriter::put_vlq_int(v): the source while loop, unrolled as
recursion on v >> 7; each 7-bit group goes out through put_aligned and
the boolean results are and-ed together. -/
def put_vlq_int (w : BitWriter) (v : Nat) : PRes (Bool × BitWriter) :=
  if h : v &&& 0xFFFFFFFFFFFFFF80 ≠ 0 then
    match put_aligned w ((v &&& 0x7F) ||| 0x80) 1 with
    | .panic => .panic
    | .ret (b, w1) =>
      match put_vlq_int w1 (v >>> 7) with
      | .panic => .panic
      | .ret (b2, w2) => .ret (b && b2, w2)
  else
    put_aligned w (v &&& 0x7F) 1
termination_by v
decreasing_by
  have h128 := le_of_vlq_mask_ne h
  simp only [Nat.shiftRight_eq_div_pow]
  exact Nat.div_lt_self (by omega) (by norm_num)

/-- Zigzag map of put_zigzag_vlq_int: ((v << 1) ^ (v >> 63)) as u64. -/
def zigzag_encode (v : Int) : Nat := toU64 (i64_xor (i64_shl1 v) (i64_ashr63 v))

/-- BitWriter::put_zigzag_vlq_int(v). -/
def put_zigzag_vlq_int (w : BitWriter) (v : Int) : PRes (Bool × BitWriter) :=
  put_vlq_int w (zigzag_encode v)

/-- BitReader state, mirroring the struct fields. -/
structure BitReader where
  buffer : List Nat
  buffered_values : Nat
  byte_offset : Nat
  bit_offset : Nat
  total_bytes : Nat
deriving Repr, DecidableEq

/-- BitReader::new(buffer): cursor at 0, window filled with the first
min(8, total) bytes read little-endian. -/
def BitReader.new (buffer : List Nat) : BitReader :=
  let total_bytes := buffer.length
  let num_bytes := min 8 total_bytes
  { buffer := buffer, buffered_values := leNat (buffer.take num_bytes),
    byte_offset := 0, bit_offset := 0, total_bytes := total_bytes }

/-- BitReader::reset(buffer): rebind to a new buffer, cursor back to 0. -/
def reset (_r : BitReader) (buffer : List Nat) : BitReader :=
  BitReader.new buffer

/-- BitReader::get_byte_offset, exactly as written in the source:
byte_offset + bit_offset / 8 + 1. -/
def get_byte_offset (r : BitReader) : Nat :=
  r.byte_offset + r.bit_offset / 8 + 1

/-- BitReader::get_value::<u64>(num_bits): the two leading asserts are
panics (the second is num_bits <= 64 for a u64 target); a failed bounds
check returns the error with the reader untouched. -/
def get_value (r : BitReader) (num_bits : Nat) : PRes (Except String Nat × BitReader) :=
  if ¬ (num_bits ≤ 32 ∧ num_bits ≤ 64) then .panic
  else if r.byte_offset * 8 + r.bit_offset + num_bits > r.total_bytes * 8 then
    .ret (.error "Not enough bytes left", r)
  else
    let v := trailing_bits r.buffered_values (r.bit_offset + num_bits) >>> r.bit_offset
    let bit1 := r.bit_offset + num_bits
    if 64 ≤ bit1 then
      let byte1 := r.byte_offset + 8
      let bit2 := bit1 - 64
      let bytes_to_read := min (r.total_bytes - byte1) 8
      let bv := leNat ((r.buffer.drop byte1).take bytes_to_read)
      let v2 := v ||| ((trailing_bits bv bit2 <<< (num_bits - bit2)) % 2 ^ 64)
      .ret (.ok v2, { buffer := r.buffer, buffered_values := bv,
                      byte_offset := byte1, bit_offset := bit2,
                      total_bytes := r.total_bytes })
    else
      .ret (.ok v, { r with bit_offset := bit1 })

/-- BitReader::get_aligned(num_bytes) with the result read as a plain
little-endian natural: round the cursor up to a byte boundary, read
num_bytes raw bytes, then refill the 8-byte window. -/
def get_aligned (r : BitReader) (num_bytes : Nat) : Except String Nat × BitReader :=
  let bytes_read := ceil8 r.bit_offset
  if r.byte_offset + bytes_read + num_bytes > r.total_bytes then
    (.error "Not enough bytes left", r)
  else
    let bo1 := r.byte_offset + bytes_read
    let v := leNat ((r.buffer.drop bo1).take num_bytes)
    let bo2 := bo1 + num_bytes
    let bytes_remaining := min (r.total_bytes - bo2) 8
    let bv := leNat ((r.buffer.drop bo2).take bytes_remaining)
    (.ok v, { buffer := r.buffer, buffered_values := bv, byte_offset := bo2,
              bit_offset := 0, total_bytes := r.total_bytes })

/-- The while let loop of BitReader::get_vlq_int: read one aligned byte,
or in its 7 payload bits at the current shift, error out past
MAX_VLQ_BYTE_LEN * 7 = 35 shifted bits, stop on a clear high bit.
The i64 accumulator stays below 2^42, so it is carried as a Nat. -/
def get_vlq_loop (r : BitReader) (shift : Nat) (v : Nat) : Except String Int × BitReader :=
  match get_aligned r 1 with
  | (.error _, r1) => (.error "Not enough bytes left", r1)
  | (.ok byte, r1) =>
    let v1 := v ||| ((byte &&& 0x7F) <<< shift)
    let shift1 := shift + 7
    if 35 < shift1 then
      (.error "Num of bytes exceed MAX_VLQ_BYTE_LEN (5)", r1)
    else if byte &&& 0x80 = 0 then (.ok (toI64 v1), r1)
    else get_vlq_loop r1 shift1 v1
termination_by 36 - shift
decreasing_by omega

/-- BitReader::get_vlq_int. -/
def get_vlq_int (r : BitReader) : Except String Int × BitReader :=
  get_vlq_loop r 0 0

/-- Inverse zigzag map of get_zigzag_vlq_int:
(u >> 1) as i64 ^ -((u & 1) as i64) with u = v as u64. -/
def zigzag_decode (v : Int) : Int :=
  let u := toU64 v
  i64_xor (toI64 (u >>> 1)) (i64_neg (toI64 (u &&& 1)))

/-- BitReader::get_zigzag_vlq_int. -/
def get_zigzag_vlq_int (r : BitReader) : Except String Int × BitReader :=
  match get_vlq_int r with
  | (.ok v, r1) => (.ok (zigzag_decode v), r1)
  | (.error e, r1) => (.error e, r1)

/-- MemoryPool counters (the arena allocations themselves carry no
information relevant to the counter invariant). -/
structure MemoryPool where
  cur_bytes_allocated : Int
  max_bytes_allocated : Int
deriving Repr, DecidableEq

/-- MemoryPool::new. -/
def MemoryPool.new : MemoryPool := { cur_bytes_allocated := 0, max_bytes_allocated := 0 }

/-- MemoryPool::consume(data) where capacity = data.capacity(): add the
capacity (usize reinterpreted as i64) and raise the peak. -/
def MemoryPool.consume (p : MemoryPool) (capacity : Nat) : MemoryPool :=
  let cur := p.cur_bytes_allocated + toI64 capacity
  { cur_bytes_allocated := cur, max_bytes_allocated := max p.max_bytes_allocated cur }

/-- MemoryPool::acquire(size) = consume(vec![0; size]), an allocation of
capacity size. -/
def MemoryPool.acquire (p : MemoryPool) (size : Nat) : MemoryPool :=
  p.consume size

/-- Run a pool through a sequence of consume/acquire capacities. -/
def runPool (caps : List Nat) : MemoryPool :=
  caps.foldl MemoryPool.consume MemoryPool.new

/-- Every byte of a buffer is an actual u8. -/
def bytesWF (l : List Nat) : Prop := ∀ b ∈ l, b < 256

/-- Little-endian concatenation value of a list of (value, width)
fields: field i occupies its width bits, lower fields first. -/
def enc : List (Nat × Nat) → Nat
  | [] => 0
  | (v, n) :: t => v + 2 ^ n * enc t

/-- Total bit width of a field list. -/
def wsum : List (Nat × Nat) → Nat
  | [] => 0
  | (_, n) :: t => n + wsum t

/-- Consecutive bit slices of N starting at bit position c, with the
given widths. -/
def sliceList (N : Nat) (c : Nat) : List Nat → List Nat
  | [] => []
  | n :: t => (N / 2 ^ c) % 2 ^ n :: sliceList N (c + n) t

/-- The VLQ byte sequence of v: 7 payload bits per byte, low group
first, continuation bit 0x80 on every byte but the last. -/
def vlqBytes (v : Nat) : List Nat :=
  if _h : v &&& 0xFFFFFFFFFFFFFF80 ≠ 0 then
    ((v &&& 0x7F) ||| 0x80) :: vlqBytes (v >>> 7)
  else [v &&& 0x7F]
termination_by v
decreasing_by
  have h128 := le_of_vlq_mask_ne _h
  simp only [Nat.shiftRight_eq_div_pow]
  exact Nat.div_lt_self (by omega) (by norm_num)

/-- Run put_value over a list of (value, width) pairs, requiring every
call to return true. -/
def putAll (w : BitWriter) : List (Nat × Nat) → Option BitWriter
  | [] => some w
  | (v, n) :: t =>
    match put_value w v n with
    | .ret (true, w1) => putAll w1 t
    | _ => none

/-- Run get_value over a list of widths, requiring every call to
succeed, collecting the values. -/
def readAll (r : BitReader) : List Nat → Option (List Nat)
  | [] => some []
  | n :: t =>
    match get_value r n with
    | .ret (.ok v, r1) => (readAll r1 t).map (fun l => v :: l)
    | _ => none

/-! Basic arithmetic facts about the helpers. -/

theorem ceil8_eq (n : Nat) : ceil8 n = n / 8 + (if n % 8 = 0 then 0 else 1) := by
  have h1 : (n : Int).tdiv 8 = ((n / 8 : Nat) : Int) := rfl
  have h2 : (n : Int).tmod 8 = ((n % 8 : Nat) : Int) := rfl
  simp only [ceil8, ceil, h1, h2]
  by_cases h : n % 8 = 0
  · have hc : ¬ ((n % 8 : Nat) : Int) ≠ 0 := by simp [h]
    rw [if_neg hc, if_pos h]
    omega
  · have hc : ((n % 8 : Nat) : Int) ≠ 0 := by exact_mod_cast h
    rw [if_pos hc, if_neg h]
    omega

theorem ceil8_bounds (n : Nat) : n ≤ 8 * ceil8 n ∧ 8 * ceil8 n ≤ n + 7 := by
  rw [ceil8_eq]
  by_cases h : n % 8 = 0 <;> simp only [h, if_true, if_false] <;> omega

theorem ceil8_zero : ceil8 0 = 0 := by decide

/-- testBit of a value with a small part below bit k and a high part. -/
theorem testBit_add_mul_two_pow {k a : Nat} (b i : Nat) (h : a < 2 ^ k) :
    (a + 2 ^ k * b).testBit i = if i < k then a.testBit i else b.testBit (i - k) := by
  rcases Nat.lt_or_ge i k with hi | hi
  · rw [if_pos hi, Nat.testBit_to_div_mod, Nat.testBit_to_div_mod]
    have hk : 2 ^ k = 2 ^ (k - i) * 2 ^ i := by
      rw [← pow_add]; congr 1; omega
    have he : a + 2 ^ k * b = a + 2 ^ (k - i) * b * 2 ^ i := by rw [hk]; ring
    have hdiv : (a + 2 ^ k * b) / 2 ^ i = a / 2 ^ i + 2 ^ (k - i) * b := by
      rw [he, Nat.add_mul_div_right _ _ (Nat.two_pow_pos i)]
    rw [hdiv, decide_eq_decide]
    have heven : 2 ^ (k - i) * b % 2 = 0 := by
      have h2 : 2 ^ (k - i) = 2 * 2 ^ (k - i - 1) := by
        rw [← pow_succ']; congr 1; omega
      rw [h2, mul_assoc]
      exact Nat.mul_mod_right 2 _
    omega
  · rw [if_neg (Nat.not_lt.mpr hi), Nat.testBit_to_div_mod, Nat.testBit_to_div_mod]
    have hi2 : 2 ^ i = 2 ^ k * 2 ^ (i - k) := by rw [← pow_add]; congr 1; omega
    have hdiv : (a + 2 ^ k * b) / 2 ^ i = b / 2 ^ (i - k) := by
      rw [hi2, ← Nat.div_div_eq_div_mul, Nat.add_mul_div_left _ _ (Nat.two_pow_pos k),
        Nat.div_eq_of_lt h, Nat.zero_add]
    rw [hdiv]

/-- Bitwise or is addition when the two parts occupy disjoint bit
ranges: a below bit k, the other a multiple of 2^k. -/
theorem lor_two_pow_add {k a : Nat} (b : Nat) (h : a < 2 ^ k) :
    a ||| 2 ^ k * b = a + 2 ^ k * b := by
  apply Nat.eq_of_testBit_eq
  intro i
  rw [Nat.testBit_lor, testBit_add_mul_two_pow b i h]
  have hsh : 2 ^ k * b = b <<< k := by rw [Nat.shiftLeft_eq, mul_comm]
  rw [hsh, Nat.testBit_shiftLeft]
  rcases Nat.lt_or_ge i k with hi | hi
  · simp [hi, Nat.not_le.mpr hi]
  · have ha : a.testBit i = false :=
      Nat.testBit_lt_two_pow (lt_of_lt_of_le h (Nat.pow_le_pow_right (by norm_num) hi))
    simp [hi, ha, Nat.not_lt.mpr hi]

theorem xor_div_two (x y : Nat) : (x ^^^ y) / 2 = x / 2 ^^^ y / 2 := by
  apply Nat.eq_of_testBit_eq
  intro i
  rw [Nat.testBit_div_two, Nat.testBit_xor, Nat.testBit_xor,
    Nat.testBit_div_two, Nat.testBit_div_two]

theorem xor_mod_two (x y : Nat) : (x ^^^ y) % 2 = (x % 2 + y % 2) % 2 := by
  have hxy := Nat.testBit_zero (x ^^^ y)
  rw [Nat.testBit_xor, Nat.testBit_zero, Nat.testBit_zero] at hxy
  have h2xy : (x ^^^ y) % 2 = 0 ∨ (x ^^^ y) % 2 = 1 := by omega
  rcases Nat.mod_two_eq_zero_or_one x with h | h <;>
    rcases Nat.mod_two_eq_zero_or_one y with h2 | h2 <;>
    rw [h, h2] at hxy ⊢ <;> norm_num at hxy ⊢ <;> omega

/-- Xor with an all-ones mask is complement below the mask. -/
theorem xor_two_pow_sub_one (n : Nat) : ∀ x : Nat, x < 2 ^ n →
    x ^^^ (2 ^ n - 1) = 2 ^ n - 1 - x := by
  induction n with
  | zero => intro x hx; interval_cases x; rfl
  | succ n ih =>
    intro x hx
    have hx2 : x / 2 < 2 ^ n := by
      rw [pow_succ] at hx; omega
    have ihx := ih (x / 2) hx2
    have hm : (2 ^ (n + 1) - 1) / 2 = 2 ^ n - 1 := by
      have : 2 ^ (n + 1) = 2 * 2 ^ n := by rw [pow_succ']
      omega
    have hm2 : (2 ^ (n + 1) - 1) % 2 = 1 := by
      have : 2 ^ (n + 1) = 2 * 2 ^ n := by rw [pow_succ']
      have : 0 < 2 ^ n := Nat.two_pow_pos n
      omega
    have hdiv := xor_div_two x (2 ^ (n + 1) - 1)
    have hmod := xor_mod_two x (2 ^ (n + 1) - 1)
    rw [hm, ihx] at hdiv
    rw [hm2] at hmod
    have hsplit := Nat.div_add_mod (x ^^^ (2 ^ (n + 1) - 1)) 2
    have hxsplit := Nat.div_add_mod x 2
    have hp : 2 ^ (n + 1) = 2 * 2 ^ n := by rw [pow_succ']
    have hpos : 0 < 2 ^ n := Nat.two_pow_pos n
    omega

theorem trailing_bits_eq {v : Nat} (k : Nat) (hv : v < 2 ^ 64) :
    trailing_bits v k = v % 2 ^ k := by
  simp only [trailing_bits]
  by_cases h0 : k = 0
  · simp [h0, Nat.mod_one]
  · rw [if_neg h0]
    rcases Nat.lt_or_ge k 64 with hk | hk
    · rw [if_neg (Nat.not_le.mpr hk), Nat.shiftLeft_eq, Nat.shiftRight_eq_div_pow]
      have h64 : (2 : Nat) ^ 64 = 2 ^ (64 - k) * 2 ^ k := by
        rw [← pow_add]; congr 1; omega
      rw [h64, mul_comm v (2 ^ (64 - k)), Nat.mul_mod_mul_left,
        Nat.mul_div_cancel_left _ (Nat.two_pow_pos (64 - k))]
    · rw [if_pos hk]
      exact (Nat.mod_eq_of_lt (lt_of_lt_of_le hv (Nat.pow_le_pow_right (by norm_num) hk))).symm

theorem and_x7F (v : Nat) : v &&& 0x7F = v % 128 := by
  have h : (0x7F : Nat) = 2 ^ 7 - 1 := rfl
  rw [h, Nat.and_pow_two_sub_one_eq_mod]

theorem and_x80_eq_zero_iff {b : Nat} (hb : b < 256) : b &&& 0x80 = 0 ↔ b < 128 := by
  have h : (0x80 : Nat) = 2 ^ 7 := rfl
  rw [h, Nat.and_two_pow]
  rcases Nat.lt_or_ge b 128 with hlt | hge
  · have hf : b.testBit 7 = false := Nat.testBit_lt_two_pow (by norm_num; omega)
    simp [hf, hlt]
  · have h7 : b / 2 ^ 7 = 1 := by norm_num; omega
    have ht : b.testBit 7 = true := by
      rw [Nat.testBit_to_div_mod, h7]
      rfl
    rw [ht]
    norm_num
    omega

/-! Little-endian byte-list lemmas. -/

theorem pow256 (k : Nat) : 256 ^ k = 2 ^ (8 * k) := by
  have h : (256 : Nat) = 2 ^ 8 := rfl
  rw [h, ← pow_mul]

theorem leNat_append (a b : List Nat) :
    leNat (a ++ b) = leNat a + 2 ^ (8 * a.length) * leNat b := by
  induction a with
  | nil => simp [leNat]
  | cons x t ih =>
    simp only [List.cons_append, leNat, List.append_eq, ih, List.length_cons]
    have h : 2 ^ (8 * (t.length + 1)) = 256 * 2 ^ (8 * t.length) := by
      rw [Nat.mul_add, pow_add]
      ring
    rw [h]
    ring

theorem leNat_lt {l : List Nat} (h : bytesWF l) : leNat l < 2 ^ (8 * l.length) := by
  induction l with
  | nil => simp [leNat]
  | cons x t ih =>
    have hx : x < 256 := h x (List.mem_cons_self x t)
    have ht : leNat t < 2 ^ (8 * t.length) := ih (fun b hb => h b (List.mem_cons_of_mem x hb))
    simp only [leNat, List.length_cons]
    have h2 : 2 ^ (8 * (t.length + 1)) = 256 * 2 ^ (8 * t.length) := by
      rw [Nat.mul_add, pow_add]; ring
    rw [h2]
    calc x + 256 * leNat t < 256 + 256 * leNat t := by omega
    _ = 256 * (leNat t + 1) := by ring
    _ ≤ 256 * 2 ^ (8 * t.length) := by
        exact Nat.mul_le_mul_left 256 (by omega)

theorem leNat_replicate_zero (n : Nat) : leNat (List.replicate n 0) = 0 := by
  induction n with
  | zero => rfl
  | succ k ih => simp [List.replicate_succ, leNat, ih]

theorem leNat_take {l : List Nat} (k : Nat) (h : bytesWF l) :
    leNat (l.take k) = leNat l % 2 ^ (8 * k) := by
  induction l generalizing k with
  | nil => simp [leNat]
  | cons x t ih =>
    cases k with
    | zero => simp [leNat, Nat.mod_one]
    | succ m =>
      have hx : x < 256 := h x (List.mem_cons_self x t)
      have ihm := ih m (fun b hb => h b (List.mem_cons_of_mem x hb))
      simp only [List.take_succ_cons, leNat, ihm]
      have h2 : 2 ^ (8 * (m + 1)) = 256 * 2 ^ (8 * m) := by
        rw [Nat.mul_add, pow_add]; ring
      rw [h2, Nat.mod_mul]
      have hmod : (x + 256 * leNat t) % 256 = x := by omega
      have hdiv : (x + 256 * leNat t) / 256 = leNat t := by omega
      rw [hmod, hdiv]

theorem leNat_drop {l : List Nat} (k : Nat) (h : bytesWF l) :
    leNat (l.drop k) = leNat l / 2 ^ (8 * k) := by
  induction l generalizing k with
  | nil => simp [leNat]
  | cons x t ih =>
    cases k with
    | zero => simp
    | succ m =>
      have hx : x < 256 := h x (List.mem_cons_self x t)
      have ihm := ih m (fun b hb => h b (List.mem_cons_of_mem x hb))
      simp only [List.drop_succ_cons, leNat, ihm]
      have h2 : 2 ^ (8 * (m + 1)) = 256 * 2 ^ (8 * m) := by
        rw [Nat.mul_add, pow_add]; ring
      rw [h2, ← Nat.div_div_eq_div_mul]
      have hdiv : (x + 256 * leNat t) / 256 = leNat t := by omega
      rw [hdiv]

theorem leBytes_length (n v : Nat) : (leBytes n v).length = n := by
  induction n generalizing v with
  | zero => rfl
  | succ m ih => simp [leBytes, ih]

theorem leBytes_wf (n v : Nat) : bytesWF (leBytes n v) := by
  induction n generalizing v with
  | zero => intro b hb; simp [leBytes] at hb
  | succ m ih =>
    intro b hb
    simp only [leBytes, List.mem_cons] at hb
    rcases hb with h | h
    · omega
    · exact ih (v / 256) b h

theorem leNat_leBytes (n v : Nat) : leNat (leBytes n v) = v % 2 ^ (8 * n) := by
  induction n generalizing v with
  | zero => simp [leBytes, leNat, Nat.mod_one]
  | succ m ih =>
    simp only [leBytes, leNat, ih]
    have h2 : 2 ^ (8 * (m + 1)) = 256 * 2 ^ (8 * m) := by
      rw [Nat.mul_add, pow_add]; ring
    rw [h2, Nat.mod_mul]

theorem leBytes_getElem (n v j : Nat) (hj : j < n) :
    (leBytes n v)[j]? = some (v / 2 ^ (8 * j) % 256) := by
  induction n generalizing v j with
  | zero => omega
  | succ m ih =>
    cases j with
    | zero => simp [leBytes]
    | succ i =>
      simp only [leBytes, List.getElem?_cons_succ]
      rw [ih (v / 256) i (by omega)]
      have h2 : 2 ^ (8 * (i + 1)) = 256 * 2 ^ (8 * i) := by
        rw [Nat.mul_add, pow_add]; ring
      rw [h2, mul_comm (256 : Nat), ← Nat.div_div_eq_div_mul]
      rw [Nat.div_div_eq_div_mul, Nat.div_div_eq_div_mul, Nat.mul_comm]

/-! writeBytes and list-slicing lemmas. -/

theorem take_min_length {α : Type} (l : List α) (k : Nat) :
    l.take (min (l.length - 0) k) = l.take k := by
  simp only [Nat.sub_zero]
  rcases Nat.le_total l.length k with h | h
  · rw [min_eq_left h, List.take_of_length_le h, List.take_of_length_le (le_refl _)]
  · rw [min_eq_right h]

theorem take_min_sub {α : Type} (l : List α) (o k : Nat) :
    (l.drop o).take (min (l.length - o) k) = (l.drop o).take k := by
  have hlen : (l.drop o).length = l.length - o := List.length_drop o l
  rcases Nat.le_total (l.length - o) k with h | h
  · rw [min_eq_left h, ← hlen, List.take_length, List.take_of_length_le (by omega)]
  · rw [min_eq_right h]

theorem writeBytes_length {buf bs : List Nat} {off : Nat}
    (h : off + bs.length ≤ buf.length) :
    (writeBytes buf off bs).length = buf.length := by
  simp only [writeBytes, List.length_append, List.length_take, List.length_drop]
  omega

theorem writeBytes_take {buf bs : List Nat} {off : Nat}
    (h : off + bs.length ≤ buf.length) :
    (writeBytes buf off bs).take (off + bs.length) = buf.take off ++ bs := by
  simp only [writeBytes]
  have hlen : (buf.take off).length = off := by
    rw [List.length_take]; omega
  have h1 : buf.take off ++ bs ++ buf.drop (off + bs.length)
      = (buf.take off ++ bs) ++ buf.drop (off + bs.length) := by
    rw [List.append_assoc]
  rw [h1]
  have h2 : (buf.take off ++ bs).length = off + bs.length := by
    rw [List.length_append, hlen]
  rw [← h2, List.take_left]

theorem writeBytes_getElem {buf bs : List Nat} {off : Nat} (p : Nat)
    (h : off + bs.length ≤ buf.length) :
    (writeBytes buf off bs)[p]? =
      if p < off then buf[p]?
      else if p < off + bs.length then bs[p - off]?
      else buf[p]? := by
  simp only [writeBytes]
  have hlen : (buf.take off).length = off := by
    rw [List.length_take]; omega
  have hlen2 : (buf.take off ++ bs).length = off + bs.length := by
    rw [List.length_append, hlen]
  rw [List.getElem?_append, hlen2]
  rcases Nat.lt_or_ge p (off + bs.length) with hp2 | hp2
  · rw [if_pos hp2, List.getElem?_append, hlen]
    rcases Nat.lt_or_ge p off with hp | hp
    · simp only [if_pos hp, List.getElem?_take]
    · simp only [if_neg (Nat.not_lt.mpr hp), if_pos hp2]
  · rw [if_neg (Nat.not_lt.mpr hp2), List.getElem?_drop,
      if_neg (by omega), if_neg (by omega)]
    congr 1
    omega

theorem writeBytes_wf {buf bs : List Nat} {off : Nat}
    (hbuf : bytesWF buf) (hbs : bytesWF bs) : bytesWF (writeBytes buf off bs) := by
  intro b hb
  simp only [writeBytes, List.mem_append] at hb
  rcases hb with (h | h) | h
  · exact hbuf b (List.mem_of_mem_take h)
  · exact hbs b h
  · exact hbuf b (List.mem_of_mem_drop h)

theorem bytesWF_take {l : List Nat} (k : Nat) (h : bytesWF l) : bytesWF (l.take k) :=
  fun b hb => h b (List.mem_of_mem_take hb)

theorem bytesWF_drop {l : List Nat} (k : Nat) (h : bytesWF l) : bytesWF (l.drop k) :=
  fun b hb => h b (List.mem_of_mem_drop hb)

theorem bytesWF_replicate_zero (n : Nat) : bytesWF (List.replicate n 0) := by
  intro b hb
  rw [List.eq_of_mem_replicate hb]
  omega

theorem bytesWF_append {a b : List Nat} (ha : bytesWF a) (hb : bytesWF b) :
    bytesWF (a ++ b) := by
  intro x hx
  rcases List.mem_append.mp hx with h | h
  · exact ha x h
  · exact hb x h

/-! Field-list encoding lemmas. -/

theorem wsum_append (a b : List (Nat × Nat)) : wsum (a ++ b) = wsum a + wsum b := by
  induction a with
  | nil => simp [wsum]
  | cons p t ih =>
    obtain ⟨v, n⟩ := p
    simp only [List.cons_append, List.append_eq, wsum, ih]
    omega

theorem enc_append (a b : List (Nat × Nat)) :
    enc (a ++ b) = enc a + 2 ^ (wsum a) * enc b := by
  induction a with
  | nil => simp [enc, wsum]
  | cons p t ih =>
    obtain ⟨v, n⟩ := p
    simp only [List.cons_append, List.append_eq, enc, wsum, ih, pow_add]
    ring

theorem enc_lt {ps : List (Nat × Nat)} (h : ∀ p ∈ ps, p.1 < 2 ^ p.2) :
    enc ps < 2 ^ wsum ps := by
  induction ps with
  | nil => simp [enc, wsum]
  | cons p t ih =>
    obtain ⟨v, n⟩ := p
    have hv : v < 2 ^ n := h (v, n) (List.mem_cons_self _ _)
    have ht := ih (fun q hq => h q (List.mem_cons_of_mem _ hq))
    simp only [enc, wsum, pow_add]
    calc v + 2 ^ n * enc t < 2 ^ n + 2 ^ n * enc t := by omega
    _ = 2 ^ n * (enc t + 1) := by ring
    _ ≤ 2 ^ n * 2 ^ wsum t := Nat.mul_le_mul_left _ (by omega)

theorem sliceList_shift {v n : Nat} (E : Nat) (hv : v < 2 ^ n) :
    ∀ (ns : List Nat) (c : Nat), sliceList (v + 2 ^ n * E) (n + c) ns = sliceList E c ns := by
  intro ns
  induction ns with
  | nil => intro c; rfl
  | cons m t ih =>
    intro c
    simp only [sliceList]
    have hdiv : (v + 2 ^ n * E) / 2 ^ (n + c) = E / 2 ^ c := by
      rw [pow_add, ← Nat.div_div_eq_div_mul,
        Nat.add_mul_div_left _ _ (Nat.two_pow_pos n), Nat.div_eq_of_lt hv, Nat.zero_add]
    rw [hdiv]
    have hc : n + c + m = n + (c + m) := by omega
    rw [hc, ih (c + m)]

theorem sliceList_enc {ps : List (Nat × Nat)} (h : ∀ p ∈ ps, p.1 < 2 ^ p.2) :
    sliceList (enc ps) 0 (ps.map Prod.snd) = ps.map Prod.fst := by
  induction ps with
  | nil => rfl
  | cons p t ih =>
    obtain ⟨v, n⟩ := p
    have hv : v < 2 ^ n := h (v, n) (List.mem_cons_self _ _)
    have ht := ih (fun q hq => h q (List.mem_cons_of_mem _ hq))
    simp only [List.map_cons, sliceList, enc]
    have h1 : (v + 2 ^ n * enc t) / 2 ^ 0 % 2 ^ n = v := by
      rw [pow_zero, Nat.div_one, Nat.add_mul_mod_self_left, Nat.mod_eq_of_lt hv]
    have h2 : sliceList (v + 2 ^ n * enc t) (0 + n) (t.map Prod.snd) = t.map Prod.fst := by
      have hz : (0 : Nat) + n = n + 0 := by omega
      rw [hz, sliceList_shift (enc t) hv (t.map Prod.snd) 0, ht]
    rw [h1, h2]

/-! C1 writer side: invariant preserved by successful put_value. -/

/-- Invariant tying a writer reached from BitWriter.new M by successful
put_value calls to the list ps of fields written so far: the committed
bytes plus the staging register hold exactly the concatenated fields. -/
def WInv (M : Nat) (ps : List (Nat × Nat)) (w : BitWriter) : Prop :=
  w.max_bytes = M ∧
  w.buffer.length = M ∧
  bytesWF w.buffer ∧
  w.byte_offset % 8 = 0 ∧
  w.bit_offset < 64 ∧
  w.buffered_values < 2 ^ w.bit_offset ∧
  8 * w.byte_offset + w.bit_offset = wsum ps ∧
  wsum ps ≤ 8 * M ∧
  leNat (w.buffer.take w.byte_offset) + 2 ^ (8 * w.byte_offset) * w.buffered_values = enc ps

theorem WInv_new (M : Nat) : WInv M [] (BitWriter.new M) := by
  refine ⟨rfl, List.length_replicate M 0, bytesWF_replicate_zero M, rfl,
    by show (0 : Nat) < 64; norm_num,
    by show (0 : Nat) < 2 ^ 0; norm_num, rfl, by simp [wsum], ?_⟩
  simp [BitWriter.new, leNat, enc]

theorem put_value_step {M : Nat} {ps : List (Nat × Nat)} {w : BitWriter}
    (hinv : WInv M ps w) {v n : Nat} (hn : n ≤ 32) (hv : v < 2 ^ n) {w1 : BitWriter}
    (hput : put_value w v n = .ret (true, w1)) :
    WInv M (ps ++ [(v, n)]) w1 := by
  obtain ⟨hM, hlen, hwf, hmod8, hbit, hbuf, hwidth, hbound, hacc⟩ := hinv
  have hvs : v >>> n = 0 := by
    rw [Nat.shiftRight_eq_div_pow]
    exact Nat.div_eq_of_lt hv
  rw [put_value, if_neg (by simpa using hn), if_neg (by simpa using hvs)] at hput
  by_cases hg : w.byte_offset * 8 + w.bit_offset + n > w.max_bytes * 8
  · rw [if_pos hg] at hput
    simp at hput
  · rw [if_neg hg] at hput
    simp only [] at hput
    have hwid1 : wsum (ps ++ [(v, n)]) = wsum ps + n := by
      rw [wsum_append]; simp [wsum]
    have henc1 : enc (ps ++ [(v, n)]) = enc ps + 2 ^ (8 * w.byte_offset + w.bit_offset) * v := by
      rw [enc_append, hwidth]; simp [enc]
    by_cases hflush : 64 ≤ w.bit_offset + n
    · have hcond : w.byte_offset + 8 ≤ w.buffer.length ∧ w.bit_offset + n - 64 < 64 := by
        constructor <;> omega
      rw [if_pos hflush, if_pos hcond] at hput
      simp only [PRes.ret.injEq, Prod.mk.injEq, true_and] at hput
      subst hput
      -- abbreviations
      have hk : 32 ≤ w.bit_offset := by omega
      have hksub : n - (w.bit_offset + n - 64) = 64 - w.bit_offset := by omega
      have h64 : (2 : Nat) ^ 64 = 2 ^ w.bit_offset * 2 ^ (64 - w.bit_offset) := by
        rw [← pow_add]; congr 1; omega
      have hshl : (v <<< w.bit_offset) % 2 ^ 64
          = 2 ^ w.bit_offset * (v % 2 ^ (64 - w.bit_offset)) := by
        rw [Nat.shiftLeft_eq, h64, mul_comm v, Nat.mul_mod_mul_left]
      have hor : w.buffered_values ||| 2 ^ w.bit_offset * (v % 2 ^ (64 - w.bit_offset))
          = w.buffered_values + 2 ^ w.bit_offset * (v % 2 ^ (64 - w.bit_offset)) :=
        lor_two_pow_add _ hbuf
      have hmlt : v % 2 ^ (64 - w.bit_offset) < 2 ^ (64 - w.bit_offset) :=
        Nat.mod_lt _ (Nat.two_pow_pos _)
      have hbvlt : w.buffered_values + 2 ^ w.bit_offset * (v % 2 ^ (64 - w.bit_offset))
          < 2 ^ 64 := by
        calc w.buffered_values + 2 ^ w.bit_offset * (v % 2 ^ (64 - w.bit_offset))
            < 2 ^ w.bit_offset + 2 ^ w.bit_offset * (v % 2 ^ (64 - w.bit_offset)) := by omega
        _ = 2 ^ w.bit_offset * (v % 2 ^ (64 - w.bit_offset) + 1) := by ring
        _ ≤ 2 ^ w.bit_offset * 2 ^ (64 - w.bit_offset) := Nat.mul_le_mul_left _ (by omega)
        _ = 2 ^ 64 := h64.symm
      have hq : v >>> (64 - w.bit_offset) = v / 2 ^ (64 - w.bit_offset) :=
        Nat.shiftRight_eq_div_pow _ _
      have hqlt : v / 2 ^ (64 - w.bit_offset) < 2 ^ (w.bit_offset + n - 64) := by
        rw [Nat.div_lt_iff_lt_mul (Nat.two_pow_pos _), ← pow_add]
        have he : w.bit_offset + n - 64 + (64 - w.bit_offset) = n := by omega
        rw [he]
        exact hv
      refine ⟨hM, ?_, ?_, ?_, ?_, ?_, ?_, ?_, ?_⟩
      · rw [writeBytes_length (by rw [leBytes_length]; exact hcond.1)]
        exact hlen
      · exact writeBytes_wf hwf (leBytes_wf _ _)
      · simp only []
        omega
      · simp only []
        omega
      · simp only [hksub, hq]
        exact hqlt
      · simp only [hwid1]
        omega
      · simp only [hwid1]
        omega
      · -- the accumulated-value equation
        simp only [hksub, hq, henc1]
        have htake : (writeBytes w.buffer w.byte_offset
            (leBytes 8 (w.buffered_values ||| (v <<< w.bit_offset) % 2 ^ 64))).take
              (w.byte_offset + 8)
            = w.buffer.take w.byte_offset
              ++ leBytes 8 (w.buffered_values ||| (v <<< w.bit_offset) % 2 ^ 64) := by
          have h8 : (leBytes 8 (w.buffered_values ||| (v <<< w.bit_offset) % 2 ^ 64)).length
              = 8 := leBytes_length _ _
          have := writeBytes_take
            (show w.byte_offset
                  + (leBytes 8 (w.buffered_values ||| (v <<< w.bit_offset) % 2 ^ 64)).length
                ≤ w.buffer.length from by rw [h8]; exact hcond.1)
          rw [h8] at this
          exact this
        rw [htake, leNat_append]
        have htklen : (w.buffer.take w.byte_offset).length = w.byte_offset := by
          rw [List.length_take]; omega
        rw [htklen, leNat_leBytes, hshl, hor,
          Nat.mod_eq_of_lt (by rw [show 8 * 8 = 64 from rfl]; exact hbvlt)]
        have hp1 : (2 : Nat) ^ (8 * (w.byte_offset + 8))
            = 2 ^ (8 * w.byte_offset) * (2 ^ w.bit_offset * 2 ^ (64 - w.bit_offset)) := by
          rw [show 8 * (w.byte_offset + 8) = 8 * w.byte_offset + 64 from by omega,
            pow_add, h64]
        have hp2 : (2 : Nat) ^ (8 * w.byte_offset + w.bit_offset)
            = 2 ^ (8 * w.byte_offset) * 2 ^ w.bit_offset := pow_add 2 _ _
        rw [hp1, hp2, ← hacc]
        conv_rhs => rw [← Nat.div_add_mod v (2 ^ (64 - w.bit_offset))]
        ring
    · rw [if_neg hflush] at hput
      simp only [PRes.ret.injEq, Prod.mk.injEq, true_and] at hput
      subst hput
      have hshl : (v <<< w.bit_offset) % 2 ^ 64 = 2 ^ w.bit_offset * v := by
        rw [Nat.shiftLeft_eq, mul_comm v]
        apply Nat.mod_eq_of_lt
        calc 2 ^ w.bit_offset * v < 2 ^ w.bit_offset * 2 ^ n :=
          mul_lt_mul_of_pos_left hv (Nat.two_pow_pos _)
        _ = 2 ^ (w.bit_offset + n) := (pow_add 2 _ _).symm
        _ ≤ 2 ^ 64 := Nat.pow_le_pow_right (by norm_num) (by omega)
      have hor : w.buffered_values ||| 2 ^ w.bit_offset * v
          = w.buffered_values + 2 ^ w.bit_offset * v := lor_two_pow_add _ hbuf
      have hbvlt : w.buffered_values + 2 ^ w.bit_offset * v < 2 ^ (w.bit_offset + n) := by
        calc w.buffered_values + 2 ^ w.bit_offset * v
            < 2 ^ w.bit_offset + 2 ^ w.bit_offset * v := by omega
        _ = 2 ^ w.bit_offset * (v + 1) := by ring
        _ ≤ 2 ^ w.bit_offset * 2 ^ n := Nat.mul_le_mul_left _ (by omega)
        _ = 2 ^ (w.bit_offset + n) := (pow_add 2 _ _).symm
      refine ⟨hM, hlen, hwf, hmod8, by show w.bit_offset + n < 64; omega, ?_, ?_, ?_, ?_⟩
      · simp only [hshl, hor]
        exact hbvlt
      · simp only [hwid1]
        omega
      · simp only [hwid1]
        omega
      · simp only [hshl, hor, henc1, ← hacc, pow_add]
        ring

theorem putAll_inv {M : Nat} : ∀ (ps pre : List (Nat × Nat)) (w w1 : BitWriter),
    WInv M pre w → (∀ p ∈ ps, p.2 ≤ 32 ∧ p.1 < 2 ^ p.2) →
    putAll w ps = some w1 → WInv M (pre ++ ps) w1 := by
  intro ps
  induction ps with
  | nil =>
    intro pre w w1 hinv _ h
    simp only [putAll, Option.some.injEq] at h
    subst h
    simpa using hinv
  | cons p t ih =>
    obtain ⟨v, n⟩ := p
    intro pre w w1 hinv hvalid h
    rw [putAll] at h
    rcases hres : put_value w v n with _ | ⟨b, w2⟩
    · rw [hres] at h
      simp at h
    · rw [hres] at h
      cases b
      · simp at h
      · simp only [] at h
        have hp := hvalid (v, n) (List.mem_cons_self _ _)
        have hstep := put_value_step hinv hp.1 hp.2 hres
        have hres2 := ih (pre ++ [(v, n)]) w2 w1 hstep
          (fun q hq => hvalid q (List.mem_cons_of_mem _ hq)) h
        rwa [List.append_assoc, List.singleton_append] at hres2

theorem consume_spec {M : Nat} {ps : List (Nat × Nat)} {w : BitWriter} (hinv : WInv M ps w) :
    consume w = .ret (w.buffer.take w.byte_offset
        ++ leBytes (ceil8 w.bit_offset) w.buffered_values, BitWriter.new M) ∧
    leNat (w.buffer.take w.byte_offset
        ++ leBytes (ceil8 w.bit_offset) w.buffered_values) = enc ps ∧
    bytesWF (w.buffer.take w.byte_offset
        ++ leBytes (ceil8 w.bit_offset) w.buffered_values) ∧
    wsum ps ≤ 8 * (w.buffer.take w.byte_offset
        ++ leBytes (ceil8 w.bit_offset) w.buffered_values).length ∧
    (w.buffer.take w.byte_offset
        ++ leBytes (ceil8 w.bit_offset) w.buffered_values).length
      = w.byte_offset + ceil8 w.bit_offset := by
  obtain ⟨hM, hlen, hwf, hmod8, hbit, hbuf, hwidth, hbound, hacc⟩ := hinv
  have hnb := ceil8_bounds w.bit_offset
  have hle : w.byte_offset + ceil8 w.bit_offset ≤ M := by omega
  have hcond : w.byte_offset + ceil8 w.bit_offset ≤ w.max_bytes ∧
      w.byte_offset + ceil8 w.bit_offset ≤ w.buffer.length := by omega
  have hflush : flush w = .ret
      { buffer := writeBytes w.buffer w.byte_offset
          (leBytes (ceil8 w.bit_offset) w.buffered_values),
        max_bytes := w.max_bytes, buffered_values := 0,
        byte_offset := w.byte_offset + ceil8 w.bit_offset, bit_offset := 0 } := by
    simp only [flush]
    rw [if_pos hcond]
  have htake : (writeBytes w.buffer w.byte_offset
      (leBytes (ceil8 w.bit_offset) w.buffered_values)).take
        (w.byte_offset + ceil8 w.bit_offset)
      = w.buffer.take w.byte_offset ++ leBytes (ceil8 w.bit_offset) w.buffered_values := by
    have hnbl : (leBytes (ceil8 w.bit_offset) w.buffered_values).length
        = ceil8 w.bit_offset := leBytes_length _ _
    have := writeBytes_take
      (show w.byte_offset + (leBytes (ceil8 w.bit_offset) w.buffered_values).length
          ≤ w.buffer.length from by rw [hnbl]; omega)
    rw [hnbl] at this
    exact this
  have htklen : (w.buffer.take w.byte_offset).length = w.byte_offset := by
    rw [List.length_take]; omega
  have hlenB : (w.buffer.take w.byte_offset
      ++ leBytes (ceil8 w.bit_offset) w.buffered_values).length
      = w.byte_offset + ceil8 w.bit_offset := by
    rw [List.length_append, htklen, leBytes_length]
  refine ⟨?_, ?_, ?_, ?_, hlenB⟩
  · rw [consume, hflush]
    simp only [htake, hM]
  · rw [leNat_append, htklen, leNat_leBytes]
    have hmod : w.buffered_values % 2 ^ (8 * ceil8 w.bit_offset) = w.buffered_values := by
      apply Nat.mod_eq_of_lt
      exact lt_of_lt_of_le hbuf (Nat.pow_le_pow_right (by norm_num) (by omega))
    rw [hmod, hacc]
  · exact bytesWF_append (bytesWF_take _ hwf) (leBytes_wf _ _)
  · rw [hlenB]
    omega

/-! C1 reader side: invariant and get_value step. -/

theorem take_min8 {α : Type} (l : List α) : l.take (min 8 l.length) = l.take 8 := by
  rcases Nat.le_total l.length 8 with h | h
  · rw [min_eq_right h, List.take_of_length_le h, List.take_of_length_le (le_refl _)]
  · rw [min_eq_left h]

/-- Reader invariant: r reads buffer B and has consumed exactly c bits. -/
def RInv (B : List Nat) (c : Nat) (r : BitReader) : Prop :=
  r.buffer = B ∧ r.total_bytes = B.length ∧ r.byte_offset % 8 = 0 ∧
  r.byte_offset ≤ B.length ∧ r.bit_offset < 64 ∧
  c = 8 * r.byte_offset + r.bit_offset ∧
  r.buffered_values = leNat ((B.drop r.byte_offset).take 8)

theorem RInv_new (B : List Nat) : RInv B 0 (BitReader.new B) := by
  refine ⟨rfl, rfl, rfl, by show (0 : Nat) ≤ B.length; omega,
    by show (0 : Nat) < 64; norm_num, rfl, ?_⟩
  show leNat (B.take (min 8 B.length)) = leNat ((B.drop 0).take 8)
  rw [take_min8, List.drop_zero]

/-- The 8-byte window starting at byte offset o of B, as a slice of the
whole little-endian value of B. -/
theorem window_eq {B : List Nat} (hwf : bytesWF B) (o : Nat) :
    leNat ((B.drop o).take 8) = leNat B / 2 ^ (8 * o) % 2 ^ 64 := by
  rw [leNat_take 8 (bytesWF_drop o hwf), leNat_drop o hwf]

theorem window_lt {B : List Nat} (hwf : bytesWF B) (o : Nat) :
    leNat ((B.drop o).take 8) < 2 ^ 64 := by
  rw [window_eq hwf o]
  exact Nat.mod_lt _ (Nat.two_pow_pos 64)

theorem get_value_step {B : List Nat} (hwf : bytesWF B) {c : Nat} {r : BitReader}
    (hinv : RInv B c r) {n : Nat} (hn : n ≤ 32) (hfit : c + n ≤ 8 * B.length) :
    ∃ r1, get_value r n = .ret (.ok (leNat B / 2 ^ c % 2 ^ n), r1) ∧ RInv B (c + n) r1 := by
  obtain ⟨hbuf, htot, hmod8, hole, hbit, hc, hbv⟩ := hinv
  have hcond1 : n ≤ 32 ∧ n ≤ 64 := ⟨hn, by omega⟩
  have hguard : ¬ r.byte_offset * 8 + r.bit_offset + n > r.total_bytes * 8 := by omega
  have hbv64 : r.buffered_values < 2 ^ 64 := by
    rw [hbv]; exact window_lt hwf _
  have hNw : r.buffered_values = leNat B / 2 ^ (8 * r.byte_offset) % 2 ^ 64 := by
    rw [hbv, window_eq hwf]
  by_cases hB2 : 64 ≤ r.bit_offset + n
  · -- window-refill branch
    have hval : trailing_bits r.buffered_values (r.bit_offset + n) >>> r.bit_offset |||
        trailing_bits
            (leNat ((r.buffer.drop (r.byte_offset + 8)).take
              (min (r.total_bytes - (r.byte_offset + 8)) 8)))
            (r.bit_offset + n - 64) <<< (n - (r.bit_offset + n - 64)) % 2 ^ 64
        = leNat B / 2 ^ c % 2 ^ n := by
      have htb : trailing_bits r.buffered_values (r.bit_offset + n) = r.buffered_values := by
        rw [trailing_bits, if_neg (by omega), if_pos hB2]
      have hwin : leNat ((r.buffer.drop (r.byte_offset + 8)).take
            (min (r.total_bytes - (r.byte_offset + 8)) 8))
          = leNat B / 2 ^ (8 * (r.byte_offset + 8)) % 2 ^ 64 := by
        rw [hbuf, htot, take_min_sub, window_eq hwf]
      have htb2 : trailing_bits (leNat B / 2 ^ (8 * (r.byte_offset + 8)) % 2 ^ 64)
            (r.bit_offset + n - 64)
          = leNat B / 2 ^ (8 * (r.byte_offset + 8)) % 2 ^ (r.bit_offset + n - 64) := by
        rw [trailing_bits_eq _ (Nat.mod_lt _ (Nat.two_pow_pos 64))]
        rw [Nat.mod_mod_of_dvd _ (pow_dvd_pow 2 (by omega))]
      have hv1 : trailing_bits r.buffered_values (r.bit_offset + n) >>> r.bit_offset
          = leNat B / 2 ^ c % 2 ^ (64 - r.bit_offset) := by
        rw [htb, hNw, Nat.shiftRight_eq_div_pow]
        rw [show (2 : Nat) ^ 64 = 2 ^ r.bit_offset * 2 ^ (64 - r.bit_offset) from by
          rw [← pow_add]; congr 1; omega]
        rw [Nat.mod_mul_right_div_self, Nat.div_div_eq_div_mul, ← pow_add, hc]
      have hshift : trailing_bits (leNat B / 2 ^ (8 * (r.byte_offset + 8)) % 2 ^ 64)
            (r.bit_offset + n - 64) <<< (n - (r.bit_offset + n - 64)) % 2 ^ 64
          = 2 ^ (64 - r.bit_offset)
            * (leNat B / 2 ^ (8 * (r.byte_offset + 8)) % 2 ^ (r.bit_offset + n - 64)) := by
        rw [htb2, Nat.shiftLeft_eq]
        rw [show n - (r.bit_offset + n - 64) = 64 - r.bit_offset from by omega]
        rw [Nat.mod_eq_of_lt, mul_comm]
        calc leNat B / 2 ^ (8 * (r.byte_offset + 8)) % 2 ^ (r.bit_offset + n - 64)
              * 2 ^ (64 - r.bit_offset)
            < 2 ^ (r.bit_offset + n - 64) * 2 ^ (64 - r.bit_offset) := by
              apply Nat.mul_lt_mul_of_lt_of_le
              · exact Nat.mod_lt _ (Nat.two_pow_pos _)
              · exact le_refl _
              · exact Nat.two_pow_pos _
        _ = 2 ^ n := by rw [← pow_add]; congr 1; omega
        _ ≤ 2 ^ 64 := Nat.pow_le_pow_right (by norm_num) (by omega)
      rw [hv1, hwin, hshift, lor_two_pow_add _ (Nat.mod_lt _ (Nat.two_pow_pos _))]
      have hsplit : leNat B / 2 ^ c % 2 ^ n
          = leNat B / 2 ^ c % 2 ^ (64 - r.bit_offset)
            + 2 ^ (64 - r.bit_offset)
              * (leNat B / 2 ^ c / 2 ^ (64 - r.bit_offset) % 2 ^ (r.bit_offset + n - 64)) := by
        rw [show (2 : Nat) ^ n
            = 2 ^ (64 - r.bit_offset) * 2 ^ (r.bit_offset + n - 64) from by
          rw [← pow_add]; congr 1; omega]
        exact Nat.mod_mul
      rw [hsplit, Nat.div_div_eq_div_mul, ← pow_add]
      rw [show c + (64 - r.bit_offset) = 8 * (r.byte_offset + 8) from by omega]
    refine ⟨BitReader.mk r.buffer
      (leNat ((r.buffer.drop (r.byte_offset + 8)).take
        (min (r.total_bytes - (r.byte_offset + 8)) 8)))
      (r.byte_offset + 8) (r.bit_offset + n - 64) r.total_bytes, ?_, ?_⟩
    · rw [get_value, if_neg (not_not_intro hcond1), if_neg hguard, if_pos hB2]
      dsimp only
      rw [hval]
    · refine ⟨hbuf, htot, by show (r.byte_offset + 8) % 8 = 0; omega,
        by show r.byte_offset + 8 ≤ B.length; omega,
        by show r.bit_offset + n - 64 < 64; omega,
        by show c + n = 8 * (r.byte_offset + 8) + (r.bit_offset + n - 64); omega, ?_⟩
      · show leNat ((r.buffer.drop (r.byte_offset + 8)).take
            (min (r.total_bytes - (r.byte_offset + 8)) 8))
          = leNat ((B.drop (r.byte_offset + 8)).take 8)
        rw [hbuf, htot, take_min_sub]
  · -- stay within the current window
    have hval : trailing_bits r.buffered_values (r.bit_offset + n) >>> r.bit_offset
        = leNat B / 2 ^ c % 2 ^ n := by
      rw [trailing_bits_eq _ hbv64, hNw, Nat.shiftRight_eq_div_pow]
      rw [Nat.mod_mod_of_dvd _ (pow_dvd_pow 2 (by omega : r.bit_offset + n ≤ 64))]
      rw [show (2 : Nat) ^ (r.bit_offset + n)
          = 2 ^ r.bit_offset * 2 ^ n from pow_add 2 _ _]
      rw [Nat.mod_mul_right_div_self, Nat.div_div_eq_div_mul, ← pow_add, hc]
    refine ⟨{ r with bit_offset := r.bit_offset + n }, ?_, ?_⟩
    · rw [get_value, if_neg (not_not_intro hcond1), if_neg hguard, if_neg hB2]
      rw [hval]
    · exact ⟨hbuf, htot, hmod8, hole, by show r.bit_offset + n < 64; omega,
        by show c + n = 8 * r.byte_offset + (r.bit_offset + n); omega, hbv⟩

theorem wsum_eq_sum (ps : List (Nat × Nat)) : wsum ps = (ps.map Prod.snd).sum := by
  induction ps with
  | nil => rfl
  | cons p t ih =>
    obtain ⟨v, n⟩ := p
    simp [wsum, ih]

theorem readAll_spec {B : List Nat} (hwf : bytesWF B) :
    ∀ (ns : List Nat) (c : Nat) (r : BitReader), RInv B c r →
    (∀ n ∈ ns, n ≤ 32) → c + ns.sum ≤ 8 * B.length →
    readAll r ns = some (sliceList (leNat B) c ns) := by
  intro ns
  induction ns with
  | nil => intro c r _ _ _; rfl
  | cons n t ih =>
    intro c r hinv hvalid hfit
    rw [List.sum_cons] at hfit
    have hn := hvalid n (List.mem_cons_self _ _)
    obtain ⟨r1, hgv, hinv1⟩ := get_value_step hwf hinv hn (by omega)
    rw [readAll, hgv]
    simp only []
    rw [ih (c + n) r1 hinv1 (fun m hm => hvalid m (List.mem_cons_of_mem _ hm)) (by omega)]
    simp [sliceList]

/-- C1: writing any sequence of (value, width) fields with widths in
1..=32 and values below 2^width through put_value (all calls returning
true), then consuming the buffer and reading the widths back in order
with get_value, returns exactly the original values: no loss or bleed
between adjacent bit-packed fields. -/
theorem c1_bit_packed_roundtrip (ps : List (Nat × Nat)) (M : Nat)
    (hps : ∀ p ∈ ps, 1 ≤ p.2 ∧ p.2 ≤ 32 ∧ p.1 < 2 ^ p.2)
    (w : BitWriter) (hw : putAll (BitWriter.new M) ps = some w)
    (buf : List Nat) (w2 : BitWriter) (hc : consume w = .ret (buf, w2)) :
    readAll (BitReader.new buf) (ps.map Prod.snd) = some (ps.map Prod.fst) := by
  have hinv : WInv M ps w := by
    have h := putAll_inv ps [] (BitWriter.new M) w (WInv_new M)
      (fun p hp => ⟨(hps p hp).2.1, (hps p hp).2.2⟩) hw
    simpa using h
  obtain ⟨hcons, hleNat, hwfB, hwid, _⟩ := consume_spec hinv
  rw [hcons] at hc
  simp only [PRes.ret.injEq, Prod.mk.injEq] at hc
  obtain ⟨hbuf, _⟩ := hc
  subst hbuf
  have hrd := readAll_spec hwfB (ps.map Prod.snd) 0 _ (RInv_new _)
    (by
      intro n hn
      obtain ⟨p, hp, hpe⟩ := List.mem_map.mp hn
      subst hpe
      exact (hps p hp).2.1)
    (by
      rw [← wsum_eq_sum]
      omega)
  rw [hrd, hleNat, sliceList_enc (fun p hp => (hps p hp).2.2)]

theorem c1_bit_packed_roundtrip_witness :
    putAll (BitWriter.new 4) [(1, 1), (5, 3), (100, 7)]
      = some (BitWriter.mk [0, 0, 0, 0] 4 1611 0 11) ∧
    consume (BitWriter.mk [0, 0, 0, 0] 4 1611 0 11)
      = .ret ([75, 6], BitWriter.new 4) ∧
    readAll (BitReader.new [75, 6]) [1, 3, 7] = some [1, 5, 100] :=
  ⟨rfl, rfl, c1_bit_packed_roundtrip [(1, 1), (5, 3), (100, 7)] 4 (by decide)
    (BitWriter.mk [0, 0, 0, 0] 4 1611 0 11) rfl [75, 6] (BitWriter.new 4) rfl⟩

/-! C3, C5, C6, C7: writer/reader point claims. -/

/-- C3: the claim that a writer never panics on insufficient room is
contradicted by the code: skip on a writer whose byte cursor equals
max_bytes hits the assert byte_offset < max_bytes and panics instead of
returning the error result. The failing input is BitWriter::new(1)
after skip(1), then skip(1). -/
theorem c3_skip_full_writer_panics :
    skip (BitWriter.new 1) 1 = .ret (.ok 0, BitWriter.mk [0] 1 0 1 0) ∧
    skip (BitWriter.mk [0] 1 0 1 0) 1 = .panic := ⟨rfl, rfl⟩

/-- C5 counterexample: a freshly constructed reader reports byte offset
1, not byte_offset + bit_offset / 8 = 0 as the claim states. -/
theorem c5_get_byte_offset_counterexample :
    get_byte_offset (BitReader.new [0, 0])
      ≠ (BitReader.new [0, 0]).byte_offset + (BitReader.new [0, 0]).bit_offset / 8 := by
  decide

/-- C5 amended: get_byte_offset reports byte_offset + bit_offset / 8 + 1
(one past the byte containing the cursor); a freshly constructed or
freshly reset reader reports 1. -/
theorem c5_get_byte_offset_amended (r : BitReader) (B : List Nat) :
    get_byte_offset r = r.byte_offset + r.bit_offset / 8 + 1 ∧
    get_byte_offset (BitReader.new B) = 1 ∧
    get_byte_offset (reset r B) = 1 :=
  ⟨rfl, by simp [get_byte_offset, BitReader.new], by simp [get_byte_offset, reset, BitReader.new]⟩

/-- C6 counterexample: writing the bits 1,0,1,0,1,0,1,0 in that order
and flushing yields first byte 85 = 0b01010101 (LSB-first packing), not
0b10101010 as the claim states. -/
theorem c6_concrete_counterexample :
    putAll (BitWriter.new 8) [(1,1),(0,1),(1,1),(0,1),(1,1),(0,1),(1,1),(0,1)]
      = some (BitWriter.mk [0,0,0,0,0,0,0,0] 8 85 0 8) ∧
    flush (BitWriter.mk [0,0,0,0,0,0,0,0] 8 85 0 8)
      = .ret (BitWriter.mk [85,0,0,0,0,0,0,0] 8 0 1 0) ∧
    (85 : Nat) ≠ 0b10101010 := ⟨rfl, rfl, by decide⟩

/-- C6 amended: writing 1,0,1,0,1,0,1,0 into an 8-byte writer and
flushing yields first buffer byte 0b01010101; reading that buffer back
one bit at a time reproduces 1,0,1,0,1,0,1,0; put_vlq_int(137) produces
exactly the bytes 0x89, 0x01 and get_vlq_int on them returns 137. -/
theorem c6_concrete_amended :
    putAll (BitWriter.new 8) [(1,1),(0,1),(1,1),(0,1),(1,1),(0,1),(1,1),(0,1)]
      = some (BitWriter.mk [0,0,0,0,0,0,0,0] 8 85 0 8) ∧
    flush (BitWriter.mk [0,0,0,0,0,0,0,0] 8 85 0 8)
      = .ret (BitWriter.mk [0b01010101,0,0,0,0,0,0,0] 8 0 1 0) ∧
    readAll (BitReader.new [0b01010101,0,0,0,0,0,0,0]) [1,1,1,1,1,1,1,1]
      = some [1,0,1,0,1,0,1,0] ∧
    put_vlq_int (BitWriter.new 2) 137 = .ret (true, BitWriter.mk [0x89, 0x01] 2 0 2 0) ∧
    consume (BitWriter.mk [0x89, 0x01] 2 0 2 0) = .ret ([0x89, 0x01], BitWriter.new 2) ∧
    (get_vlq_int (BitReader.new [0x89, 0x01])).1 = .ok 137 := by
  refine ⟨rfl, rfl, rfl, ?_, rfl, ?_⟩
  · rw [put_vlq_int, dif_pos (by decide : (137 : Nat) &&& 0xFFFFFFFFFFFFFF80 ≠ 0)]
    rw [show put_aligned (BitWriter.new 2) ((137 : Nat) &&& 0x7F ||| 0x80) 1
        = .ret (true, BitWriter.mk [137, 0] 2 0 1 0) from by decide]
    dsimp only
    rw [show (137 : Nat) >>> 7 = 1 from by decide, put_vlq_int,
      dif_neg (by decide : ¬ ((1 : Nat) &&& 0xFFFFFFFFFFFFFF80 ≠ 0))]
    decide
  · rw [get_vlq_int, get_vlq_loop]
    rw [show get_aligned (BitReader.new [137, 1]) 1
        = (.ok 137, BitReader.mk [137, 1] 1 1 0 2) from rfl]
    dsimp only
    rw [if_neg (by decide : ¬ (35 : Nat) < 0 + 7),
      if_neg (by decide : ¬ (137 : Nat) &&& 0x80 = 0), get_vlq_loop]
    rw [show get_aligned (BitReader.mk [137, 1] 1 1 0 2) 1
        = (.ok 1, BitReader.mk [137, 1] 0 2 0 2) from rfl]
    dsimp only
    rw [if_neg (by decide : ¬ (35 : Nat) < 0 + 7 + 7),
      if_pos (by decide : (1 : Nat) &&& 0x80 = 0)]
    rfl

/-- C7: put_aligned_offset fails (returning false with the writer
untouched) exactly when offset + num_bytes > max_bytes; on success it
writes the num_bytes low-order little-endian bytes of val at positions
offset..offset+num_bytes, leaves every other buffer byte unchanged, and
does not move the cursor (byte_offset, bit_offset, buffered_values). -/
theorem c7_put_aligned_offset_frame (w : BitWriter) (val num_bytes offset : Nat)
    (hwf : w.buffer.length = w.max_bytes) :
    (offset + num_bytes > w.max_bytes →
      put_aligned_offset w val num_bytes offset = .ret (false, w)) ∧
    (offset + num_bytes ≤ w.max_bytes →
      put_aligned_offset w val num_bytes offset
        = .ret (true, { w with buffer := writeBytes w.buffer offset (leBytes num_bytes val) }) ∧
      (∀ j, j < num_bytes →
        (writeBytes w.buffer offset (leBytes num_bytes val))[offset + j]?
          = some (val / 2 ^ (8 * j) % 256)) ∧
      (∀ p, p < offset ∨ offset + num_bytes ≤ p →
        (writeBytes w.buffer offset (leBytes num_bytes val))[p]? = w.buffer[p]?)) := by
  constructor
  · intro hgt
    rw [put_aligned_offset, if_pos (by omega)]
  · intro hle
    have hin : offset + num_bytes ≤ w.buffer.length := by omega
    have hwg : ∀ p : Nat, (writeBytes w.buffer offset (leBytes num_bytes val))[p]?
        = if p < offset then w.buffer[p]?
          else if p < offset + num_bytes then (leBytes num_bytes val)[p - offset]?
          else w.buffer[p]? := by
      intro p
      have h := writeBytes_getElem p
        (show offset + (leBytes num_bytes val).length ≤ w.buffer.length
          from by rw [leBytes_length]; exact hin)
      rw [leBytes_length] at h
      exact h
    refine ⟨?_, ?_, ?_⟩
    · rw [put_aligned_offset, if_neg (by omega), if_pos hin]
    · intro j hj
      rw [hwg (offset + j), if_neg (by omega), if_pos (by omega),
        show offset + j - offset = j from by omega, leBytes_getElem _ _ _ hj]
    · intro p hp
      rw [hwg p]
      rcases hp with h | h
      · rw [if_pos h]
      · rw [if_neg (by omega), if_neg (by omega)]

theorem c7_put_aligned_offset_frame_witness :
    (BitWriter.mk [7, 7, 7] 3 9 0 5).buffer.length = (BitWriter.mk [7, 7, 7] 3 9 0 5).max_bytes ∧
    1 + 2 ≤ 3 ∧
    put_aligned_offset (BitWriter.mk [7, 7, 7] 3 9 0 5) 0x3412 2 1
      = .ret (true, BitWriter.mk [7, 0x12, 0x34] 3 9 0 5) :=
  ⟨rfl, by decide,
    ((c7_put_aligned_offset_frame (BitWriter.mk [7, 7, 7] 3 9 0 5) 0x3412 2 1 rfl).2
      (by decide)).1⟩

/-! C8: memory pool counters. C4: reader failure atomicity. -/

theorem toI64_small {c : Nat} (h : c < 2 ^ 63) : toI64 c = (c : Int) := by
  unfold toI64
  have h64 : c % 2 ^ 64 = c := Nat.mod_eq_of_lt (by omega)
  rw [h64, if_pos h]

theorem pool_fold : ∀ (caps : List Nat) (p : MemoryPool),
    p.cur_bytes_allocated ≤ p.max_bytes_allocated →
    (∀ c ∈ caps, c < 2 ^ 63) →
    (caps.foldl MemoryPool.consume p).cur_bytes_allocated
      = p.cur_bytes_allocated + ((caps.sum : Nat) : Int) ∧
    (caps.foldl MemoryPool.consume p).max_bytes_allocated
      = max p.max_bytes_allocated
          (p.cur_bytes_allocated + ((caps.sum : Nat) : Int)) := by
  intro caps
  induction caps with
  | nil =>
    intro p hinv _
    constructor
    · simp
    · simp
      omega
  | cons c t ih =>
    intro p hinv hval
    have hc : c < 2 ^ 63 := hval c (List.mem_cons_self _ _)
    have hstep : MemoryPool.consume p c
        = { cur_bytes_allocated := p.cur_bytes_allocated + (c : Int),
            max_bytes_allocated := max p.max_bytes_allocated
              (p.cur_bytes_allocated + (c : Int)) } := by
      rw [MemoryPool.consume, toI64_small hc]
    have hih := ih (MemoryPool.consume p c)
      (by rw [hstep]; exact le_max_right _ _)
      (fun x hx => hval x (List.mem_cons_of_mem _ hx))
    obtain ⟨hcur, hmax⟩ := hih
    have hc1 : (MemoryPool.consume p c).cur_bytes_allocated
        = p.cur_bytes_allocated + (c : Int) := by rw [hstep]
    have hm1 : (MemoryPool.consume p c).max_bytes_allocated
        = max p.max_bytes_allocated (p.cur_bytes_allocated + (c : Int)) := by rw [hstep]
    rw [List.foldl_cons]
    constructor
    · rw [hcur, hc1, List.sum_cons, Nat.cast_add]
      ring
    · rw [hmax, hm1, hc1, List.sum_cons, Nat.cast_add, max_assoc,
        max_eq_right (by omega : p.cur_bytes_allocated + (c : Int)
          ≤ p.cur_bytes_allocated + (c : Int) + ((t.sum : Nat) : Int)), add_assoc]

/-- C8: over any sequence of acquire/consume calls (with realistic
capacities below 2^63 so the i64 cast is faithful), each call increases
cur_bytes_allocated by exactly the capacity consumed, the counter never
decreases, max_bytes_allocated dominates the counter after every prefix
and equals its running maximum (which, the counter being nondecreasing
from 0, is the current value). -/
theorem c8_memory_pool_counters (caps : List Nat) (hcaps : ∀ c ∈ caps, c < 2 ^ 63)
    (c : Nat) (hc : c < 2 ^ 63) :
    (runPool (caps ++ [c])).cur_bytes_allocated
      = (runPool caps).cur_bytes_allocated + (c : Int) ∧
    (runPool caps).cur_bytes_allocated ≤ (runPool (caps ++ [c])).cur_bytes_allocated ∧
    (∀ k, k ≤ caps.length →
      (runPool (caps.take k)).cur_bytes_allocated
        ≤ (runPool caps).max_bytes_allocated) ∧
    (runPool caps).max_bytes_allocated = (runPool caps).cur_bytes_allocated := by
  have hall : ∀ c2 ∈ caps ++ [c], c2 < 2 ^ 63 := by
    intro c2 hc2
    rcases List.mem_append.mp hc2 with h | h
    · exact hcaps c2 h
    · simp at h
      omega
  have hr : ∀ (l : List Nat), (∀ x ∈ l, x < 2 ^ 63) →
      (runPool l).cur_bytes_allocated = ((l.sum : Nat) : Int) ∧
      (runPool l).max_bytes_allocated = ((l.sum : Nat) : Int) := by
    intro l hl
    obtain ⟨h1, h2⟩ := pool_fold l MemoryPool.new (le_refl 0) hl
    constructor
    · rw [runPool, h1]
      show (0 : Int) + _ = _
      ring
    · rw [runPool, h2]
      show max (0 : Int) ((0 : Int) + _) = _
      rw [zero_add]
      exact max_eq_right (by positivity)
  have hsum2 : ((caps ++ [c]).sum : Nat) = caps.sum + c := by simp
  have hkv : ∀ k, ∀ c2 ∈ caps.take k, c2 < 2 ^ 63 :=
    fun k c2 h2 => hcaps c2 (List.mem_of_mem_take h2)
  refine ⟨?_, ?_, ?_, ?_⟩
  · rw [(hr _ hall).1, (hr _ hcaps).1, hsum2, Nat.cast_add]
  · rw [(hr _ hall).1, (hr _ hcaps).1, hsum2, Nat.cast_add]
    omega
  · intro k hk
    rw [(hr _ (hkv k)).1, (hr _ hcaps).2]
    have htk : (caps.take k).sum + (caps.drop k).sum = caps.sum := by
      rw [← List.sum_append, List.take_append_drop]
    have hle : (caps.take k).sum ≤ caps.sum := by omega
    exact_mod_cast hle
  · rw [(hr _ hcaps).1, (hr _ hcaps).2]

theorem c8_memory_pool_counters_witness :
    (runPool ([3, 5] ++ [2])).cur_bytes_allocated
      = (runPool [3, 5]).cur_bytes_allocated + (2 : Int) ∧
    (runPool [3, 5]).cur_bytes_allocated ≤ (runPool ([3, 5] ++ [2])).cur_bytes_allocated ∧
    (runPool ([3, 5].take 1)).cur_bytes_allocated ≤ (runPool [3, 5]).max_bytes_allocated ∧
    (runPool [3, 5]).max_bytes_allocated = (runPool [3, 5]).cur_bytes_allocated :=
  ⟨(c8_memory_pool_counters [3, 5] (by decide) 2 (by decide)).1,
   (c8_memory_pool_counters [3, 5] (by decide) 2 (by decide)).2.1,
   (c8_memory_pool_counters [3, 5] (by decide) 2 (by decide)).2.2.1 1 (by decide),
   (c8_memory_pool_counters [3, 5] (by decide) 2 (by decide)).2.2.2⟩

/-- C4 counterexample: get_vlq_int on the one-byte stream 0x80 (a
continuation byte with nothing after it) returns the not-enough-bytes
error, but the reader's byte_offset has advanced from 0 to 1: the
cursor does not stay where it was, contrary to the claim. -/
theorem c4_reader_atomicity_counterexample :
    get_vlq_int (BitReader.new [0x80])
      = (.error "Not enough bytes left", BitReader.mk [0x80] 0 1 0 1) ∧
    (BitReader.mk [0x80] 0 1 0 1).byte_offset ≠ (BitReader.new [0x80]).byte_offset := by
  constructor
  · rw [get_vlq_int, get_vlq_loop]
    rw [show get_aligned (BitReader.new [128]) 1
        = (.ok 128, BitReader.mk [128] 0 1 0 1) from rfl]
    dsimp only
    rw [if_neg (by decide : ¬ (35 : Nat) < 0 + 7),
      if_neg (by decide : ¬ (128 : Nat) &&& 0x80 = 0), get_vlq_loop]
    rw [show get_aligned (BitReader.mk [128] 0 1 0 1) 1
        = (.error "Not enough bytes left", BitReader.mk [128] 0 1 0 1) from rfl]
  · decide

/-- C4 amended: the single-step reads are failure-atomic: whenever
get_value or get_aligned returns an error, the reader state is exactly
what it was before the call (get_vlq_int and get_zigzag_vlq_int may
instead leave the cursor past the bytes consumed before failing). -/
theorem c4_single_read_failure_atomic (r : BitReader) (n : Nat) :
    (∀ e r1, get_value r n = .ret (.error e, r1) → r1 = r) ∧
    (∀ e r1, get_aligned r n = (.error e, r1) → r1 = r) := by
  constructor
  · intro e r1 h
    rw [get_value] at h
    by_cases h1 : ¬ (n ≤ 32 ∧ n ≤ 64)
    · rw [if_pos h1] at h
      simp at h
    · rw [if_neg h1] at h
      by_cases h2 : r.byte_offset * 8 + r.bit_offset + n > r.total_bytes * 8
      · rw [if_pos h2] at h
        simp only [PRes.ret.injEq, Prod.mk.injEq] at h
        exact h.2.symm
      · rw [if_neg h2] at h
        by_cases h3 : 64 ≤ r.bit_offset + n
        · rw [if_pos h3] at h
          simp at h
        · rw [if_neg h3] at h
          simp at h
  · intro e r1 h
    rw [get_aligned] at h
    by_cases h1 : r.byte_offset + ceil8 r.bit_offset + n > r.total_bytes
    · rw [if_pos h1] at h
      simp only [Prod.mk.injEq] at h
      exact h.2.symm
    · rw [if_neg h1] at h
      simp at h

theorem c4_single_read_failure_atomic_witness :
    get_value (BitReader.new []) 1
      = .ret (.error "Not enough bytes left", BitReader.new []) ∧
    BitReader.new ([] : List Nat) = BitReader.new [] :=
  ⟨rfl, (c4_single_read_failure_atomic (BitReader.new []) 1).1
    "Not enough bytes left" (BitReader.new []) rfl⟩

/-! VLQ machinery for C2 and C9. -/

theorem or_x80 {a : Nat} (h : a < 128) : a ||| 0x80 = a + 128 := by
  have h2 : (0x80 : Nat) = 2 ^ 7 * 1 := rfl
  rw [h2, lor_two_pow_add 1 (by norm_num; omega)]

theorem vlq_mask_zero {v : Nat} (h : v < 128) : v &&& 0xFFFFFFFFFFFFFF80 = 0 := by
  by_contra hne
  exact absurd (le_of_vlq_mask_ne hne) (by omega)

theorem vlqBytes_small {v : Nat} (h : v < 128) : vlqBytes v = [v &&& 0x7F] := by
  rw [vlqBytes, dif_neg (by simpa using vlq_mask_zero h)]

theorem vlqBytes_large {v : Nat} (h : v &&& 0xFFFFFFFFFFFFFF80 ≠ 0) :
    vlqBytes v = ((v &&& 0x7F) ||| 0x80) :: vlqBytes (v >>> 7) := by
  rw [vlqBytes, dif_pos h]

theorem vlqBytes_wf : ∀ v, bytesWF (vlqBytes v) := by
  intro v
  induction v using Nat.strong_induction_on with
  | _ v ih =>
    by_cases h : v &&& 0xFFFFFFFFFFFFFF80 ≠ 0
    · rw [vlqBytes_large h]
      intro b hb
      rcases List.mem_cons.mp hb with h1 | h1
      · rw [h1, and_x7F, or_x80 (Nat.mod_lt _ (by norm_num))]
        omega
      · have h128 := le_of_vlq_mask_ne h
        have hlt : v >>> 7 < v := by
          rw [Nat.shiftRight_eq_div_pow]
          exact Nat.div_lt_self (by omega) (by norm_num)
        exact ih _ hlt b h1
    · rw [vlqBytes, dif_neg h]
      intro b hb
      simp only [List.mem_singleton] at hb
      rw [hb, and_x7F]
      omega

theorem vlqBytes_length_le : ∀ (m v : Nat), v < 2 ^ (7 * (m + 1)) →
    (vlqBytes v).length ≤ m + 1 := by
  intro m
  induction m with
  | zero =>
    intro v hv
    rw [vlqBytes_small (by norm_num at hv; omega)]
    simp
  | succ k ih =>
    intro v hv
    by_cases h : v &&& 0xFFFFFFFFFFFFFF80 ≠ 0
    · rw [vlqBytes_large h]
      simp only [List.length_cons]
      have h128 := le_of_vlq_mask_ne h
      have hdiv : v >>> 7 < 2 ^ (7 * (k + 1)) := by
        rw [Nat.shiftRight_eq_div_pow]
        rw [Nat.div_lt_iff_lt_mul (by norm_num : (0 : Nat) < 2 ^ 7), ← pow_add]
        have he : 7 * (k + 1) + 7 = 7 * (k + 1 + 1) := by ring
        rw [he]
        exact hv
      have := ih (v >>> 7) hdiv
      omega
    · rw [vlqBytes, dif_neg h]
      simp

/-- A writer with no pending bits flushes to itself. -/
theorem flush_ready {w : BitWriter} (hb : w.bit_offset = 0) (hv : w.buffered_values = 0)
    (hle : w.byte_offset ≤ w.max_bytes) (hlen : w.byte_offset ≤ w.buffer.length) :
    flush w = .ret w := by
  obtain ⟨buf, M, bv, bo, bi⟩ := w
  simp only [] at hb hv hle hlen
  subst hb hv
  have hwr : writeBytes buf bo (leBytes (ceil8 0) 0) = buf := by
    simp [ceil8_zero, leBytes, writeBytes]
  simp only [flush, ceil8_zero, Nat.add_zero] at hwr ⊢
  rw [if_pos ⟨hle, hlen⟩, hwr]

theorem consume_ready {w : BitWriter} (hb : w.bit_offset = 0) (hv : w.buffered_values = 0)
    (hle : w.byte_offset ≤ w.max_bytes) (hlen : w.byte_offset ≤ w.buffer.length) :
    consume w = .ret (w.buffer.take w.byte_offset, BitWriter.new w.max_bytes) := by
  rw [consume, flush_ready hb hv hle hlen]

/-- A single aligned byte write on a writer with no pending bits. -/
theorem put_aligned_byte {w : BitWriter} (b : Nat) (hb0 : w.bit_offset = 0)
    (hv0 : w.buffered_values = 0) (hlen : w.buffer.length = w.max_bytes)
    (hroom : w.byte_offset + 1 ≤ w.max_bytes) :
    put_aligned w b 1 = .ret (true, BitWriter.mk
      (writeBytes w.buffer w.byte_offset [b % 256]) w.max_bytes 0
      (w.byte_offset + 1) 0) := by
  obtain ⟨buf, M, bv, bo, bi⟩ := w
  simp only [] at hb0 hv0 hlen hroom ⊢
  subst hb0 hv0
  rw [put_aligned, skip,
    @flush_ready (BitWriter.mk buf M 0 bo 0) rfl rfl
      (show bo ≤ M from by omega) (show bo ≤ buf.length from by omega)]
  dsimp only
  rw [if_neg (show ¬ ¬ bo < M from by omega),
    if_neg (show ¬ bo + 1 > M from by omega)]
  rfl

theorem writeBytes_cons {buf : List Nat} {o : Nat} {b : Nat} {rest : List Nat}
    (h : o + 1 + rest.length ≤ buf.length) :
    writeBytes (writeBytes buf o [b]) (o + 1) rest = writeBytes buf o (b :: rest) := by
  have ho : o ≤ buf.length := by omega
  have htk : (buf.take o).length = o := by rw [List.length_take]; omega
  have hlen2 : (buf.take o ++ [b]).length = o + 1 := by
    rw [List.length_append, htk]
    rfl
  have hWdef : writeBytes buf o [b] = (buf.take o ++ [b]) ++ buf.drop (o + 1) := by
    simp only [writeBytes, List.length_singleton, List.append_assoc]
  have h1 : (writeBytes buf o [b]).take (o + 1) = buf.take o ++ [b] := by
    rw [hWdef, ← hlen2, List.take_left]
  have h2 : (writeBytes buf o [b]).drop (o + 1 + rest.length)
      = buf.drop (o + 1 + rest.length) := by
    rw [hWdef, show o + 1 + rest.length = (buf.take o ++ [b]).length + rest.length from by
      rw [hlen2], List.drop_append, List.drop_drop, hlen2]
  show (writeBytes buf o [b]).take (o + 1) ++ rest
      ++ (writeBytes buf o [b]).drop (o + 1 + rest.length)
    = buf.take o ++ (b :: rest) ++ buf.drop (o + (b :: rest).length)
  rw [h1, h2, show o + (b :: rest).length = o + 1 + rest.length from by
    rw [List.length_cons]; omega]
  simp only [List.append_assoc, List.singleton_append]

/-- put_vlq_int on a byte-aligned writer with room appends exactly the
VLQ byte sequence of v and reports success. -/
theorem put_vlq_spec : ∀ (v : Nat) (w : BitWriter), w.bit_offset = 0 →
    w.buffered_values = 0 → w.buffer.length = w.max_bytes →
    w.byte_offset + (vlqBytes v).length ≤ w.max_bytes →
    put_vlq_int w v = .ret (true, BitWriter.mk
      (writeBytes w.buffer w.byte_offset (vlqBytes v)) w.max_bytes 0
      (w.byte_offset + (vlqBytes v).length) 0) := by
  intro v
  induction v using Nat.strong_induction_on with
  | _ v ih =>
    intro w hb0 hv0 hlen hroom
    by_cases h : v &&& 0xFFFFFFFFFFFFFF80 ≠ 0
    · have h128 := le_of_vlq_mask_ne h
      have hlt : v >>> 7 < v := by
        rw [Nat.shiftRight_eq_div_pow]
        exact Nat.div_lt_self (by omega) (by norm_num)
      have hlenv : (vlqBytes v).length = (vlqBytes (v >>> 7)).length + 1 := by
        rw [vlqBytes_large h, List.length_cons]
      have hbyte : ((v &&& 0x7F) ||| 0x80) % 256 = (v &&& 0x7F) ||| 0x80 := by
        apply Nat.mod_eq_of_lt
        rw [and_x7F, or_x80 (Nat.mod_lt _ (by norm_num))]
        omega
      rw [put_vlq_int, dif_pos h,
        put_aligned_byte _ hb0 hv0 hlen (by omega), hbyte]
      have hih := ih (v >>> 7) hlt
        (BitWriter.mk (writeBytes w.buffer w.byte_offset [(v &&& 0x7F) ||| 0x80])
          w.max_bytes 0 (w.byte_offset + 1) 0)
        rfl rfl
        (by
          show (writeBytes w.buffer w.byte_offset [(v &&& 0x7F) ||| 0x80]).length
            = w.max_bytes
          rw [writeBytes_length]
          · exact hlen
          · simp only [List.length_singleton]
            omega)
        (by
          show w.byte_offset + 1 + (vlqBytes (v >>> 7)).length ≤ w.max_bytes
          omega)
      dsimp only
      rw [hih]
      dsimp only
      rw [writeBytes_cons (by omega), ← vlqBytes_large h,
        show w.byte_offset + 1 + (vlqBytes (v >>> 7)).length
          = w.byte_offset + (vlqBytes v).length from by omega]
      rfl
    · simp only [ne_eq, not_not] at h
      have hv1 : vlqBytes v = [v &&& 0x7F] := by
        rw [vlqBytes, dif_neg (by simpa using h)]
      have hlen1 : (vlqBytes v).length = 1 := by rw [hv1]; rfl
      have hbyte : (v &&& 0x7F) % 256 = v &&& 0x7F := by
        apply Nat.mod_eq_of_lt
        rw [and_x7F]
        omega
      rw [put_vlq_int, dif_neg (by simpa using h),
        put_aligned_byte _ hb0 hv0 hlen (by omega), hbyte, hv1]
      rfl

theorem lt128_of_mask_zero {u : Nat} (hu : u < 2 ^ 64)
    (h : u &&& 0xFFFFFFFFFFFFFF80 = 0) : u < 128 := by
  have h1 : (0x7F : Nat) ||| 0xFFFFFFFFFFFFFF80 = 2 ^ 64 - 1 := by
    have hm : (0xFFFFFFFFFFFFFF80 : Nat) = 2 ^ 7 * (2 ^ 57 - 1) := by norm_num
    rw [hm, lor_two_pow_add (2 ^ 57 - 1) (by norm_num)]
    norm_num
  have h2 : u &&& (2 ^ 64 - 1) = u := by
    rw [Nat.and_pow_two_sub_one_eq_mod, Nat.mod_eq_of_lt hu]
  have h3 : u &&& (0x7F ||| 0xFFFFFFFFFFFFFF80)
      = (u &&& 0x7F) ||| (u &&& 0xFFFFFFFFFFFFFF80) := by
    rw [Nat.and_comm u, Nat.and_distrib_right, Nat.and_comm _ u, Nat.and_comm _ u]
  rw [h1, h2, h, Nat.or_zero, and_x7F] at h3
  omega

theorem leNat_take_one {B : List Nat} {o : Nat} (ho : o < B.length) :
    leNat ((B.drop o).take 1) = B.getD o 0 := by
  rw [List.drop_eq_getElem_cons ho, List.take_succ_cons, List.take_zero,
    List.getD_eq_getElem B 0 ho]
  simp [leNat]

/-- A one-byte aligned read from a byte-aligned reader. -/
theorem get_aligned_byte {B : List Nat} {r : BitReader} (hbuf : r.buffer = B)
    (htot : r.total_bytes = B.length) (hbit : r.bit_offset = 0)
    (ho : r.byte_offset < B.length) :
    get_aligned r 1 = (.ok (B.getD r.byte_offset 0), BitReader.mk B
      (leNat ((B.drop (r.byte_offset + 1)).take (min (B.length - (r.byte_offset + 1)) 8)))
      (r.byte_offset + 1) 0 B.length) := by
  rw [get_aligned, hbit, hbuf, htot]
  simp only [ceil8_zero, Nat.add_zero]
  rw [if_neg (by omega : ¬ r.byte_offset + 1 > B.length), leNat_take_one ho]

/-- One continuation step of the get_vlq_int loop. -/
theorem vlq_loop_cont {B : List Nat} {r : BitReader} (shift acc : Nat)
    (hbuf : r.buffer = B) (htot : r.total_bytes = B.length) (hbit : r.bit_offset = 0)
    (ho : r.byte_offset < B.length) (hcont : ¬ B.getD r.byte_offset 0 &&& 0x80 = 0)
    (hsh : shift + 7 ≤ 35) :
    get_vlq_loop r shift acc = get_vlq_loop
      (BitReader.mk B
        (leNat ((B.drop (r.byte_offset + 1)).take (min (B.length - (r.byte_offset + 1)) 8)))
        (r.byte_offset + 1) 0 B.length)
      (shift + 7) (acc ||| (B.getD r.byte_offset 0 &&& 0x7F) <<< shift) := by
  rw [get_vlq_loop, get_aligned_byte hbuf htot hbit ho]
  dsimp only
  rw [if_neg (by omega : ¬ 35 < shift + 7), if_neg hcont]

/-- The overflow exit of the get_vlq_int loop: past 35 shifted bits the
next byte read errors out regardless of its continuation bit. -/
theorem vlq_loop_overflow {B : List Nat} {r : BitReader} (shift acc : Nat)
    (hbuf : r.buffer = B) (htot : r.total_bytes = B.length) (hbit : r.bit_offset = 0)
    (ho : r.byte_offset < B.length) (hsh : 35 < shift + 7) :
    get_vlq_loop r shift acc = (.error "Num of bytes exceed MAX_VLQ_BYTE_LEN (5)",
      BitReader.mk B
        (leNat ((B.drop (r.byte_offset + 1)).take (min (B.length - (r.byte_offset + 1)) 8)))
        (r.byte_offset + 1) 0 B.length) := by
  rw [get_vlq_loop, get_aligned_byte hbuf htot hbit ho]
  dsimp only
  rw [if_pos hsh]

/-- Decoding lemma: get_vlq_loop at shift 7k over a buffer holding the
VLQ bytes of u at the cursor returns acc plus u shifted into place, and
leaves the reader just past those bytes. -/
theorem vlq_loop_spec : ∀ (u k acc : Nat) (r : BitReader) (B : List Nat),
    u < 2 ^ 64 →
    r.buffer = B → r.total_bytes = B.length → r.bit_offset = 0 →
    (∀ j, j < (vlqBytes u).length →
      B.getD (r.byte_offset + j) 0 = (vlqBytes u).getD j 0) →
    r.byte_offset + (vlqBytes u).length ≤ B.length →
    k + (vlqBytes u).length ≤ 5 → acc < 2 ^ (7 * k) →
    get_vlq_loop r (7 * k) acc = (.ok (toI64 (acc + u * 2 ^ (7 * k))),
      BitReader.mk B (leNat ((B.drop (r.byte_offset + (vlqBytes u).length)).take
        (min (B.length - (r.byte_offset + (vlqBytes u).length)) 8)))
      (r.byte_offset + (vlqBytes u).length) 0 B.length) := by
  intro u
  induction u using Nat.strong_induction_on with
  | _ u ih =>
    intro k acc r B hu64 hbuf htot hbit hpre hlen hk hacc
    by_cases h : u &&& 0xFFFFFFFFFFFFFF80 ≠ 0
    · have h128 := le_of_vlq_mask_ne h
      have hlt : u >>> 7 < u := by
        rw [Nat.shiftRight_eq_div_pow]
        exact Nat.div_lt_self (by omega) (by norm_num)
      have hlenu : (vlqBytes u).length = (vlqBytes (u >>> 7)).length + 1 := by
        rw [vlqBytes_large h, List.length_cons]
      have hlen1 : 1 ≤ (vlqBytes u).length := by omega
      have hbyte0 : B.getD r.byte_offset 0 = (u &&& 0x7F) ||| 0x80 := by
        have hp := hpre 0 (by omega)
        rw [Nat.add_zero] at hp
        rw [hp, vlqBytes_large h, List.getD_cons_zero]
      have hbnum : (u &&& 0x7F) ||| 0x80 = u % 128 + 128 := by
        rw [and_x7F, or_x80 (Nat.mod_lt _ (by norm_num))]
      have hcont : ¬ B.getD r.byte_offset 0 &&& 0x80 = 0 := by
        rw [hbyte0, hbnum, and_x80_eq_zero_iff (by omega)]
        omega
      have hlen2 : 2 ≤ (vlqBytes u).length := by
        rw [vlqBytes_large h, List.length_cons]
        have : 1 ≤ (vlqBytes (u >>> 7)).length := by
          by_cases h2 : u >>> 7 &&& 0xFFFFFFFFFFFFFF80 ≠ 0
          · rw [vlqBytes_large h2]
            simp
          · simp only [ne_eq, not_not] at h2
            rw [vlqBytes, dif_neg (by simpa using h2)]
            simp
        omega
      rw [vlq_loop_cont (7 * k) acc hbuf htot hbit (by omega) hcont (by omega)]
      rw [hbyte0]
      have hand : ((u &&& 0x7F) ||| 0x80) &&& 0x7F = u % 128 := by
        rw [hbnum, and_x7F]
        omega
      rw [hand]
      have hql : acc ||| (u % 128) <<< (7 * k) = acc + 2 ^ (7 * k) * (u % 128) := by
        rw [Nat.shiftLeft_eq, mul_comm, lor_two_pow_add _ hacc]
      rw [hql, show 7 * k + 7 = 7 * (k + 1) from by ring]
      have hp : (2 : Nat) ^ (7 * (k + 1)) = 2 ^ (7 * k) * 128 := by
        rw [show 7 * (k + 1) = 7 * k + 7 from by ring, pow_add]
        norm_num
      have hmod : u % 128 < 128 := Nat.mod_lt _ (by norm_num)
      have hacc2 : acc + 2 ^ (7 * k) * (u % 128) < 2 ^ (7 * (k + 1)) := by
        calc acc + 2 ^ (7 * k) * (u % 128)
            < 2 ^ (7 * k) + 2 ^ (7 * k) * (u % 128) := by omega
        _ = 2 ^ (7 * k) * (u % 128 + 1) := by ring
        _ ≤ 2 ^ (7 * k) * 128 := Nat.mul_le_mul_left _ (by omega)
        _ = 2 ^ (7 * (k + 1)) := hp.symm
      have hpre2 : ∀ j, j < (vlqBytes (u >>> 7)).length →
          B.getD (r.byte_offset + 1 + j) 0 = (vlqBytes (u >>> 7)).getD j 0 := by
        intro j hj
        have hp2 := hpre (j + 1) (by omega)
        rw [vlqBytes_large h, List.getD_cons_succ] at hp2
        rw [show r.byte_offset + 1 + j = r.byte_offset + (j + 1) from by omega]
        exact hp2
      have hih := ih (u >>> 7) hlt (k + 1) (acc + 2 ^ (7 * k) * (u % 128))
        (BitReader.mk B
          (leNat ((B.drop (r.byte_offset + 1)).take
            (min (B.length - (r.byte_offset + 1)) 8)))
          (r.byte_offset + 1) 0 B.length) B
        (by
          rw [Nat.shiftRight_eq_div_pow]
          exact lt_of_le_of_lt (Nat.div_le_self _ _) hu64)
        rfl rfl rfl hpre2 (by show r.byte_offset + 1 + _ ≤ _; omega)
        (by omega) hacc2
      rw [hih]
      have hval : acc + 2 ^ (7 * k) * (u % 128) + u >>> 7 * 2 ^ (7 * (k + 1))
          = acc + u * 2 ^ (7 * k) := by
        rw [Nat.shiftRight_eq_div_pow, hp, show (2 : Nat) ^ 7 = 128 from rfl]
        conv_rhs => rw [show u = u % 128 + 128 * (u / 128) from by omega]
        ring
      rw [hval, show r.byte_offset + 1 + (vlqBytes (u >>> 7)).length
          = r.byte_offset + (vlqBytes u).length from by omega]
    · simp only [ne_eq, not_not] at h
      have hu128 : u < 128 := lt128_of_mask_zero hu64 h
      have huv : vlqBytes u = [u &&& 0x7F] := vlqBytes_small hu128
      have hlen1 : (vlqBytes u).length = 1 := by rw [huv]; rfl
      have handu : u &&& 0x7F = u := by rw [and_x7F, Nat.mod_eq_of_lt hu128]
      have hbyte0 : B.getD r.byte_offset 0 = u := by
        have hp := hpre 0 (by omega)
        rw [Nat.add_zero, huv, List.getD_cons_zero, handu] at hp
        exact hp
      rw [get_vlq_loop, get_aligned_byte hbuf htot hbit (by omega)]
      dsimp only
      rw [hbyte0, handu, if_neg (by omega : ¬ 35 < 7 * k + 7),
        if_pos (by rw [and_x80_eq_zero_iff (by omega)]; omega)]
      have hql : acc ||| u <<< (7 * k) = acc + u * 2 ^ (7 * k) := by
        rw [Nat.shiftLeft_eq, mul_comm, lor_two_pow_add _ hacc, mul_comm]
      rw [hql, show r.byte_offset + (vlqBytes u).length = r.byte_offset + 1 from by omega]

theorem vlq_loop_ok_lt (r : BitReader) (shift acc : Nat) :
    acc < 2 ^ shift →
    ∀ v r1, get_vlq_loop r shift acc = (.ok v, r1) →
    ∃ n : Nat, v = toI64 n ∧ n < 2 ^ 35 := by
  induction r, shift, acc using get_vlq_loop.induct with
  | case1 r shift acc r1 e heq =>
    intro _ v r2 hok
    rw [get_vlq_loop, heq] at hok
    exact absurd hok (by simp)
  | case2 r shift acc byte r1 heq shift1 hsh =>
    intro _ v r2 hok
    rw [get_vlq_loop, heq] at hok
    dsimp only at hok
    rw [if_pos hsh] at hok
    exact absurd hok (by simp)
  | case3 r shift acc byte r1 heq shift1 hsh hbyte =>
    intro hacc v r2 hok
    rw [get_vlq_loop, heq] at hok
    dsimp only at hok
    rw [if_neg hsh, if_pos hbyte] at hok
    have hv : v = toI64 (acc ||| (byte &&& 0x7F) <<< shift) := by
      have := congrArg Prod.fst hok
      exact (Except.ok.injEq _ _ ▸ this).symm
    refine ⟨acc ||| (byte &&& 0x7F) <<< shift, hv, ?_⟩
    have hlt : byte &&& 0x7F < 128 := by
      rw [and_x7F byte]; exact Nat.mod_lt _ (by omega)
    have h1 : acc ||| (byte &&& 0x7F) <<< shift = acc + 2 ^ shift * (byte &&& 0x7F) := by
      rw [Nat.shiftLeft_eq, Nat.mul_comm]
      exact lor_two_pow_add _ hacc
    rw [h1]
    have hs28 : shift ≤ 28 := by
      have h : ¬ 35 < shift + 7 := hsh
      omega
    calc acc + 2 ^ shift * (byte &&& 0x7F)
        < 2 ^ shift * 128 := by
          have := Nat.mul_le_mul_left (2 ^ shift) (show byte &&& 0x7F ≤ 127 by omega)
          omega
      _ ≤ 2 ^ 28 * 128 := by
          have := Nat.pow_le_pow_right (show 1 ≤ 2 by omega) hs28
          omega
      _ ≤ 2 ^ 35 := by norm_num
  | case4 r shift acc byte r1 heq v1 shift1 hsh hbyte ih =>
    intro hacc v r2 hok
    rw [get_vlq_loop, heq] at hok
    dsimp only at hok
    rw [if_neg hsh, if_neg hbyte] at hok
    have hacc' : acc ||| (byte &&& 0x7F) <<< shift < 2 ^ (shift + 7) := by
      have hlt : byte &&& 0x7F < 128 := by
        rw [and_x7F byte]; exact Nat.mod_lt _ (by omega)
      have h1 : acc ||| (byte &&& 0x7F) <<< shift = acc + 2 ^ shift * (byte &&& 0x7F) := by
        rw [Nat.shiftLeft_eq, Nat.mul_comm]
        exact lor_two_pow_add _ hacc
      rw [h1, Nat.pow_add]
      have := Nat.mul_le_mul_left (2 ^ shift) (show byte &&& 0x7F ≤ 127 by omega)
      omega
    exact ih hacc' v r2 hok

/-- A successful get_vlq_int always yields a value below 2^35. -/
theorem vlq_int_ok_lt (r : BitReader) (v : Int) (r1 : BitReader)
    (hok : get_vlq_int r = (.ok v, r1)) : ∃ n : Nat, v = toI64 n ∧ n < 2 ^ 35 :=
  vlq_loop_ok_lt r 0 0 (by omega) v r1 hok

/-- vlq_loop_cont restated on a canonical reader state so that the
positions are explicit arithmetic terms. -/
theorem vlq_loop_cont2 (B : List Nat) (o shift acc w : Nat)
    (ho : o < B.length) (hcont : ¬ B.getD o 0 &&& 0x80 = 0) (hsh : shift + 7 ≤ 35) :
    get_vlq_loop (BitReader.mk B w o 0 B.length) shift acc
      = get_vlq_loop
          (BitReader.mk B (leNat ((B.drop (o + 1)).take (min (B.length - (o + 1)) 8)))
            (o + 1) 0 B.length)
          (shift + 7) (acc ||| (B.getD o 0 &&& 0x7F) <<< shift) :=
  vlq_loop_cont shift acc rfl rfl rfl ho hcont hsh

/-- vlq_loop_overflow restated on a canonical reader state. -/
theorem vlq_loop_overflow2 (B : List Nat) (o shift acc w : Nat)
    (ho : o < B.length) (hsh : 35 < shift + 7) :
    get_vlq_loop (BitReader.mk B w o 0 B.length) shift acc
      = (.error "Num of bytes exceed MAX_VLQ_BYTE_LEN (5)",
         BitReader.mk B
           (leNat ((B.drop (o + 1)).take (min (B.length - (o + 1)) 8)))
           (o + 1) 0 B.length) :=
  vlq_loop_overflow shift acc rfl rfl rfl ho hsh

/-- Any buffer of at least six bytes whose first five bytes all carry the
continuation bit drives get_vlq_int into the overflow error. -/
theorem vlq_overflow_run (B : List Nat) (h6 : 6 ≤ B.length)
    (hcont : ∀ i, i < 5 → ¬ B.getD i 0 &&& 0x80 = 0) :
    (get_vlq_int (BitReader.new B)).1
      = .error "Num of bytes exceed MAX_VLQ_BYTE_LEN (5)" := by
  rw [get_vlq_int,
    show BitReader.new B
      = BitReader.mk B (leNat (B.take (min 8 B.length))) 0 0 B.length from rfl]
  rw [vlq_loop_cont2 B 0 0 0 _ (by omega) (hcont 0 (by omega)) (by omega)]
  rw [vlq_loop_cont2 B _ _ _ _ (by omega) (hcont 1 (by omega)) (by omega)]
  rw [vlq_loop_cont2 B _ _ _ _ (by omega) (hcont 2 (by omega)) (by omega)]
  rw [vlq_loop_cont2 B _ _ _ _ (by omega) (hcont 3 (by omega)) (by omega)]
  rw [vlq_loop_cont2 B _ _ _ _ (by omega) (hcont 4 (by omega)) (by omega)]
  rw [vlq_loop_overflow2 B _ _ _ _ (by omega) (by omega)]

/-- C9: get_vlq_int checks the group count before testing the
continuation bit, so any stream whose first five bytes all carry the
continuation bit is rejected with the overflow error — even when the
sixth byte would terminate the varint — and a successful get_vlq_int
always returns (the i64 image of) a value below 2^35, so no value
needing more than 35 payload bits can ever be decoded. -/
theorem c9_vlq_hard_cap (B : List Nat) (h6 : 6 ≤ B.length)
    (hcont : ∀ i, i < 5 → ¬ B.getD i 0 &&& 0x80 = 0)
    (r : BitReader) (v : Int) (r1 : BitReader)
    (hok : get_vlq_int r = (.ok v, r1)) :
    (get_vlq_int (BitReader.new B)).1
      = .error "Num of bytes exceed MAX_VLQ_BYTE_LEN (5)" ∧
    ∃ n : Nat, v = toI64 n ∧ n < 2 ^ 35 :=
  ⟨vlq_overflow_run B h6 hcont, vlq_int_ok_lt r v r1 hok⟩

theorem c9_vlq_hard_cap_witness :
    6 ≤ ([0x80, 0x80, 0x80, 0x80, 0x80, 0x01] : List Nat).length ∧
    (∀ i, i < 5 →
      ¬ ([0x80, 0x80, 0x80, 0x80, 0x80, 0x01] : List Nat).getD i 0 &&& 0x80 = 0) ∧
    get_vlq_int (BitReader.new [1]) = (.ok 1, BitReader.mk [1] 0 1 0 1) ∧
    ((get_vlq_int (BitReader.new [0x80, 0x80, 0x80, 0x80, 0x80, 0x01])).1
        = .error "Num of bytes exceed MAX_VLQ_BYTE_LEN (5)" ∧
      ∃ n : Nat, (1 : Int) = toI64 n ∧ n < 2 ^ 35) := by
  have hok : get_vlq_int (BitReader.new [1]) = (.ok 1, BitReader.mk [1] 0 1 0 1) := by
    rw [get_vlq_int, get_vlq_loop]
    rw [show get_aligned (BitReader.new [1]) 1 = (.ok 1, BitReader.mk [1] 0 1 0 1) from rfl]
    dsimp only
    rw [if_neg (by decide : ¬ (35 : Nat) < 0 + 7),
      if_pos (by decide : (1 : Nat) &&& 0x80 = 0)]
    rfl
  exact ⟨by decide, by decide, hok,
    c9_vlq_hard_cap [0x80, 0x80, 0x80, 0x80, 0x80, 0x01] (by decide) (by decide) _ 1 _ hok⟩

theorem toU64_lt (z : Int) : toU64 z < 2 ^ 64 := by
  unfold toU64; omega

theorem toU64_toI64 (x : Nat) : toU64 (toI64 x) = x % 2 ^ 64 := by
  unfold toI64 toU64
  split_ifs with h
  · omega
  · omega

/-- The zigzag map (v << 1) ^ (v >> 63) computed by put_zigzag_vlq_int,
as plain arithmetic on the i64 range. -/
theorem zigzag_encode_eq (v : Int) (hlo : -(2 ^ 63) ≤ v) (hhi : v < 2 ^ 63) :
    zigzag_encode v = if 0 ≤ v then 2 * v.toNat else 2 * (-v).toNat - 1 := by
  unfold zigzag_encode i64_xor i64_shl1 i64_ashr63
  by_cases h0 : 0 ≤ v
  · rw [if_neg (by omega : ¬ v < 0), if_pos h0]
    have htv : toU64 v = v.toNat := by unfold toU64; omega
    have h2 : (2 * toU64 v) % 2 ^ 64 = 2 * v.toNat := by rw [htv]; omega
    have h3 : 2 * v.toNat % 2 ^ 64 = 2 * v.toNat := by omega
    rw [h2, toU64_toI64, toU64_toI64, h3, show toU64 0 = 0 from rfl,
      Nat.xor_zero, h3]
  · rw [if_pos (by omega : v < 0), if_neg h0]
    have hm1 : toU64 (-1) = 2 ^ 64 - 1 := by unfold toU64; omega
    have htv : toU64 v = 2 ^ 64 - (-v).toNat := by unfold toU64; omega
    have hmge : 1 ≤ (-v).toNat := by omega
    have hmle : (-v).toNat ≤ 2 ^ 63 := by omega
    have h2 : (2 * toU64 v) % 2 ^ 64 = 2 ^ 64 - 2 * (-v).toNat := by rw [htv]; omega
    have h3 : (2 ^ 64 - 2 * (-v).toNat) % 2 ^ 64 = 2 ^ 64 - 2 * (-v).toNat := by omega
    rw [h2, toU64_toI64, hm1, toU64_toI64, h3,
      xor_two_pow_sub_one 64 _ (by omega)]
    omega

/-- Zigzag decode of an even 64-bit pattern 2m gives m. -/
theorem zigzag_decode_even (m : Nat) (hm : m < 2 ^ 63) :
    zigzag_decode (toI64 (2 * m)) = (m : Int) := by
  show i64_xor (toI64 (toU64 (toI64 (2 * m)) >>> 1))
    (i64_neg (toI64 (toU64 (toI64 (2 * m)) &&& 1))) = (m : Int)
  rw [toU64_toI64]
  have h1 : 2 * m % 2 ^ 64 = 2 * m := by omega
  rw [h1]
  have h2 : (2 * m) >>> 1 = m := by rw [Nat.shiftRight_eq_div_pow]; omega
  have h3 : (2 * m) &&& 1 = 0 := by rw [Nat.and_one_is_mod]; omega
  rw [h2, h3, show toI64 0 = 0 from rfl, show i64_neg 0 = 0 from rfl]
  unfold i64_xor
  rw [show toU64 0 = 0 from rfl, Nat.xor_zero, toU64_toI64]
  have h4 : m % 2 ^ 64 = m := by omega
  rw [h4, toI64_small hm]

/-- Zigzag decode of an odd 64-bit pattern 2m-1 gives -m. -/
theorem zigzag_decode_odd (m : Nat) (h1 : 1 ≤ m) (hm : m ≤ 2 ^ 63) :
    zigzag_decode (toI64 (2 * m - 1)) = -(m : Int) := by
  show i64_xor (toI64 (toU64 (toI64 (2 * m - 1)) >>> 1))
    (i64_neg (toI64 (toU64 (toI64 (2 * m - 1)) &&& 1))) = -(m : Int)
  rw [toU64_toI64]
  have he : (2 * m - 1) % 2 ^ 64 = 2 * m - 1 := by omega
  rw [he]
  have h2 : (2 * m - 1) >>> 1 = m - 1 := by rw [Nat.shiftRight_eq_div_pow]; omega
  have h3 : (2 * m - 1) &&& 1 = 1 := by rw [Nat.and_one_is_mod]; omega
  rw [h2, h3, show toI64 1 = 1 from rfl]
  have hneg : i64_neg 1 = -1 := by
    unfold i64_neg
    rw [show toU64 (-1) = 2 ^ 64 - 1 from by unfold toU64; omega]
    unfold toI64
    rw [if_neg (by omega)]
    omega
  rw [hneg]
  unfold i64_xor
  rw [show toU64 (-1) = 2 ^ 64 - 1 from by unfold toU64; omega, toU64_toI64]
  have h4 : (m - 1) % 2 ^ 64 = m - 1 := by omega
  rw [h4, xor_two_pow_sub_one 64 (m - 1) (by omega),
    show 2 ^ 64 - 1 - (m - 1) = 2 ^ 64 - m from by omega]
  unfold toI64
  rw [if_neg (by omega)]
  omega

/-- Zigzag decode inverts zigzag encode on the whole i64 range. -/
theorem zigzag_roundtrip (v : Int) (hlo : -(2 ^ 63) ≤ v) (hhi : v < 2 ^ 63) :
    zigzag_decode (toI64 (zigzag_encode v)) = v := by
  rw [zigzag_encode_eq v hlo hhi]
  by_cases h0 : 0 ≤ v
  · rw [if_pos h0, zigzag_decode_even v.toNat (by omega)]
    omega
  · rw [if_neg h0, show 2 * (-v).toNat - 1 = 2 * (-v).toNat - 1 from rfl,
      zigzag_decode_odd (-v).toNat (by omega) (by omega)]
    omega

/-- C2: zigzag-VLQ round-trip and overflow rejection. For every i64
value v whose zigzag image fits in 5 base-128 groups (is below 2^35)
and any writer capacity M of at least 5 bytes, put_zigzag_vlq_int
succeeds, consume returns exactly the VLQ bytes of the zigzag image,
get_zigzag_vlq_int on those bytes returns v again, and any stream whose
first five bytes all carry the continuation bit is rejected by
get_vlq_int with the distinct overflow error. -/
theorem c2_zigzag_vlq_roundtrip (v : Int) (M : Nat)
    (hlo : -(2 ^ 63) ≤ v) (hhi : v < 2 ^ 63)
    (hfit : zigzag_encode v < 2 ^ 35) (hM : 5 ≤ M) :
    ∃ w1 : BitWriter,
      put_zigzag_vlq_int (BitWriter.new M) v = .ret (true, w1) ∧
      consume w1 = .ret (vlqBytes (zigzag_encode v), BitWriter.new M) ∧
      (get_zigzag_vlq_int (BitReader.new (vlqBytes (zigzag_encode v)))).1 = .ok v ∧
      ∀ B : List Nat, 6 ≤ B.length →
        (∀ i, i < 5 → ¬ B.getD i 0 &&& 0x80 = 0) →
        (get_vlq_int (BitReader.new B)).1
          = .error "Num of bytes exceed MAX_VLQ_BYTE_LEN (5)" := by
  have hu64 : zigzag_encode v < 2 ^ 64 := toU64_lt _
  have hlen : (vlqBytes (zigzag_encode v)).length ≤ 5 :=
    vlqBytes_length_le 4 _ (by omega)
  have hrep : (List.replicate M (0 : Nat)).length = M := List.length_replicate _ _
  refine ⟨BitWriter.mk
      (writeBytes (List.replicate M 0) 0 (vlqBytes (zigzag_encode v))) M 0
      (0 + (vlqBytes (zigzag_encode v)).length) 0, ?_, ?_, ?_, ?_⟩
  · rw [put_zigzag_vlq_int]
    exact put_vlq_spec (zigzag_encode v) (BitWriter.new M) rfl rfl
      (by rw [show (BitWriter.new M).buffer = List.replicate M 0 from rfl, hrep]; rfl)
      (show 0 + (vlqBytes (zigzag_encode v)).length ≤ M from by omega)
  · have h1 : 0 + (vlqBytes (zigzag_encode v)).length
        ≤ (List.replicate M (0 : Nat)).length := by omega
    rw [consume_ready
      (show (0 : Nat) = 0 from rfl) (show (0 : Nat) = 0 from rfl)
      (show 0 + (vlqBytes (zigzag_encode v)).length ≤ M from by omega)
      (show 0 + (vlqBytes (zigzag_encode v)).length
          ≤ (writeBytes (List.replicate M 0) 0 (vlqBytes (zigzag_encode v))).length
        from by rw [writeBytes_length h1]; omega)]
    dsimp only
    rw [writeBytes_take h1, List.take_zero, List.nil_append]
  · rw [get_zigzag_vlq_int]
    have hr := vlq_loop_spec (zigzag_encode v) 0 0
      (BitReader.new (vlqBytes (zigzag_encode v))) (vlqBytes (zigzag_encode v))
      hu64 rfl rfl rfl
      (by
        intro j hj
        rw [show (BitReader.new (vlqBytes (zigzag_encode v))).byte_offset = 0 from rfl,
          Nat.zero_add])
      (show 0 + (vlqBytes (zigzag_encode v)).length
          ≤ (vlqBytes (zigzag_encode v)).length from by omega)
      (show 0 + (vlqBytes (zigzag_encode v)).length ≤ 5 from by omega)
      (by norm_num)
    rw [show (7 : Nat) * 0 = 0 from rfl] at hr
    rw [show 0 + zigzag_encode v * 2 ^ (7 * 0) = zigzag_encode v from by norm_num] at hr
    rw [get_vlq_int, hr]
    dsimp only
    rw [zigzag_roundtrip v hlo hhi]
  · exact fun B h6 hcont => vlq_overflow_run B h6 hcont

theorem c2_zigzag_vlq_roundtrip_witness :
    -(2 ^ 63) ≤ (-123456 : Int) ∧ (-123456 : Int) < 2 ^ 63 ∧
    zigzag_encode (-123456) < 2 ^ 35 ∧ 5 ≤ 10 ∧
    (∃ w1 : BitWriter,
      put_zigzag_vlq_int (BitWriter.new 10) (-123456) = .ret (true, w1) ∧
      consume w1 = .ret (vlqBytes (zigzag_encode (-123456)), BitWriter.new 10) ∧
      (get_zigzag_vlq_int
        (BitReader.new (vlqBytes (zigzag_encode (-123456))))).1 = .ok (-123456) ∧
      ∀ B : List Nat, 6 ≤ B.length →
        (∀ i, i < 5 → ¬ B.getD i 0 &&& 0x80 = 0) →
        (get_vlq_int (BitReader.new B)).1
          = .error "Num of bytes exceed MAX_VLQ_BYTE_LEN (5)") :=
  ⟨by decide, by decide, by decide, by decide,
    c2_zigzag_vlq_roundtrip (-123456) 10 (by decide) (by decide) (by decide) (by decide)⟩

/-- The writer mutation operations of the public API, for the zero-fill
frame property. -/
inductive WOp where
  | putValue (v n : Nat)
  | putAligned (val num_bytes : Nat)
  | putAlignedOffset (val num_bytes offset : Nat)
  | putVlq (v : Nat)
  | skipOp (num_bytes : Nat)

/-- Run one writer operation, keeping the updated writer (the Bool /
Result values are not needed for the frame property). -/
def runWOp (w : BitWriter) : WOp → PRes BitWriter
  | .putValue v n => match put_value w v n with
    | .panic => .panic
    | .ret (_, w1) => .ret w1
  | .putAligned val nb => match put_aligned w val nb with
    | .panic => .panic
    | .ret (_, w1) => .ret w1
  | .putAlignedOffset val nb off => match put_aligned_offset w val nb off with
    | .panic => .panic
    | .ret (_, w1) => .ret w1
  | .putVlq v => match put_vlq_int w v with
    | .panic => .panic
    | .ret (_, w1) => .ret w1
  | .skipOp n => match skip w n with
    | .panic => .panic
    | .ret (_, w1) => .ret w1

/-- The bit positions an operation is asked to write, from the
pre-state: put_value writes at the bit cursor, the aligned writes at
the byte-aligned cursor following the implied flush, the offset write
at its absolute offset, and skip asks for nothing. -/
def opRange (w : BitWriter) : WOp → Nat × Nat
  | .putValue _ n =>
      (8 * w.byte_offset + w.bit_offset, 8 * w.byte_offset + w.bit_offset + n)
  | .putAligned _ nb =>
      (8 * (w.byte_offset + ceil8 w.bit_offset),
       8 * (w.byte_offset + ceil8 w.bit_offset + nb))
  | .putAlignedOffset _ nb off => (8 * off, 8 * (off + nb))
  | .putVlq v =>
      (8 * (w.byte_offset + ceil8 w.bit_offset),
       8 * (w.byte_offset + ceil8 w.bit_offset + (vlqBytes v).length))
  | .skipOp _ => (0, 0)

/-- Run a sequence of operations, recording each op's requested bit
range. -/
def runWOps (w : BitWriter) : List WOp → Option (BitWriter × List (Nat × Nat))
  | [] => some (w, [])
  | op :: t => match runWOp w op with
    | .panic => none
    | .ret w1 => match runWOps w1 t with
      | none => none
      | some (w2, F) => some (w2, opRange w op :: F)

/-- Byte p lies wholly outside every recorded bit range. -/
def untouchedByte (F : List (Nat × Nat)) (p : Nat) : Prop :=
  ∀ r ∈ F, r.2 ≤ 8 * p ∨ 8 * p + 8 ≤ r.1

instance (F : List (Nat × Nat)) (p : Nat) : Decidable (untouchedByte F p) :=
  List.decidableBAll _ F

/-- Byte p lies wholly outside the pending staged bits of w. -/
def pendingFree (w : BitWriter) (p : Nat) : Prop :=
  8 * p + 8 ≤ 8 * w.byte_offset ∨ 8 * w.byte_offset + w.bit_offset ≤ 8 * p

instance (w : BitWriter) (p : Nat) : Decidable (pendingFree w p) := by
  unfold pendingFree; infer_instance

/-- Base well-formedness of a writer state for the frame argument. -/
def WBase (w : BitWriter) : Prop :=
  w.bit_offset < 64 ∧ w.buffered_values < 2 ^ w.bit_offset ∧
  w.buffer.length = w.max_bytes

theorem writeBytes_getD_frame {buf bs : List Nat} {off : Nat} (p : Nat)
    (h : off + bs.length ≤ buf.length) (hp : p < off ∨ off + bs.length ≤ p) :
    (writeBytes buf off bs).getD p 0 = buf.getD p 0 := by
  rw [List.getD_eq_getElem?_getD, List.getD_eq_getElem?_getD, writeBytes_getElem p h]
  rcases hp with h1 | h1
  · rw [if_pos h1]
  · rw [if_neg (by omega), if_neg (by omega)]

/-- flush touches only bytes holding pending bits; it empties the
staging register and advances the cursor to byte alignment. -/
theorem flush_frame {w w1 : BitWriter} (hf : flush w = .ret w1) :
    w1.max_bytes = w.max_bytes ∧ w1.buffer.length = w.buffer.length ∧
    w1.bit_offset = 0 ∧ w1.buffered_values = 0 ∧
    w1.byte_offset = w.byte_offset + ceil8 w.bit_offset ∧
    w.byte_offset + ceil8 w.bit_offset ≤ w.max_bytes ∧
    ∀ p, pendingFree w p → w1.buffer.getD p 0 = w.buffer.getD p 0 := by
  rw [flush] at hf
  by_cases hc : w.byte_offset + ceil8 w.bit_offset ≤ w.max_bytes ∧
      w.byte_offset + ceil8 w.bit_offset ≤ w.buffer.length
  · rw [if_pos hc] at hf
    injection hf with hf1
    subst hf1
    have hc8 := ceil8_bounds w.bit_offset
    have hwl : w.byte_offset + (leBytes (ceil8 w.bit_offset) w.buffered_values).length
        ≤ w.buffer.length := by rw [leBytes_length]; exact hc.2
    refine ⟨rfl, writeBytes_length hwl, rfl, rfl, rfl, hc.1, ?_⟩
    intro p hpf
    refine writeBytes_getD_frame p hwl ?_
    rw [leBytes_length]
    rcases hpf with h1 | h1
    · left; omega
    · right; omega
  · rw [if_neg hc] at hf
    exact absurd hf (by simp)

theorem pendingFree_of_bit0 {w : BitWriter} (h : w.bit_offset = 0) (p : Nat) :
    pendingFree w p := by
  unfold pendingFree; omega

/-- skip flushes (touching only pending bytes) and moves the byte
cursor; it never writes outside the pending bits. -/
theorem skip_frame {w : BitWriter} {n : Nat} {res : Except String Nat} {w1 : BitWriter}
    (hlen : w.buffer.length = w.max_bytes) (h : skip w n = .ret (res, w1)) :
    w1.max_bytes = w.max_bytes ∧ w1.buffer.length = w1.max_bytes ∧
    w1.bit_offset = 0 ∧ w1.buffered_values = 0 ∧
    w.byte_offset + ceil8 w.bit_offset ≤ w1.byte_offset ∧
    (∀ o, res = .ok o → o = w.byte_offset + ceil8 w.bit_offset ∧
      w1.byte_offset = o + n ∧ o + n ≤ w1.max_bytes) ∧
    ∀ p, pendingFree w p → w1.buffer.getD p 0 = w.buffer.getD p 0 := by
  rw [skip] at h
  cases hf : flush w with
  | panic => rw [hf] at h; exact absurd h (by simp)
  | ret wf =>
    rw [hf] at h
    dsimp only at h
    have hF := flush_frame hf
    by_cases h1 : ¬ wf.byte_offset < wf.max_bytes
    · rw [if_pos h1] at h; exact absurd h (by simp)
    · rw [if_neg h1] at h
      by_cases h2 : wf.byte_offset + n > wf.max_bytes
      · rw [if_pos h2] at h
        injection h with h'
        cases h'
        refine ⟨hF.1, by rw [hF.2.1, hlen, hF.1], hF.2.2.1, hF.2.2.2.1, ?_, ?_, ?_⟩
        · rw [hF.2.2.2.2.1]
        · intro o ho; exact absurd ho (by simp)
        · exact hF.2.2.2.2.2.2
      · rw [if_neg h2] at h
        injection h with h'
        cases h'
        refine ⟨hF.1, by rw [hF.2.1, hlen, hF.1], hF.2.2.1, hF.2.2.2.1, ?_, ?_, ?_⟩
        · dsimp only
          rw [hF.2.2.2.2.1]; omega
        · intro o ho
          injection ho with ho'
          subst ho'
          exact ⟨hF.2.2.2.2.1, rfl, by dsimp only; omega⟩
        · exact hF.2.2.2.2.2.2

/-- put_aligned flushes, then writes only the nb reserved bytes at the
byte-aligned cursor (or nothing on a failed reservation). -/
theorem put_aligned_frame {w : BitWriter} {val nb : Nat} {b : Bool} {w1 : BitWriter}
    (hlen : w.buffer.length = w.max_bytes) (h : put_aligned w val nb = .ret (b, w1)) :
    w1.max_bytes = w.max_bytes ∧ w1.buffer.length = w1.max_bytes ∧
    w1.bit_offset = 0 ∧ w1.buffered_values = 0 ∧
    w.byte_offset + ceil8 w.bit_offset ≤ w1.byte_offset ∧
    w1.byte_offset ≤ w.byte_offset + ceil8 w.bit_offset + nb ∧
    ∀ p, pendingFree w p →
      (p < w.byte_offset + ceil8 w.bit_offset ∨
        w.byte_offset + ceil8 w.bit_offset + nb ≤ p) →
      w1.buffer.getD p 0 = w.buffer.getD p 0 := by
  rw [put_aligned] at h
  cases hs : skip w nb with
  | panic => rw [hs] at h; exact absurd h (by simp)
  | ret pr =>
    obtain ⟨res, ws⟩ := pr
    rw [hs] at h
    have hS := skip_frame hlen hs
    cases res with
    | error e =>
      dsimp only at h
      injection h with h'
      obtain ⟨hb, hw⟩ := Prod.mk.inj h'
      subst hw
      -- skip errored: ws is the flushed writer, cursor at the aligned offset
      have hbo : ws.byte_offset = w.byte_offset + ceil8 w.bit_offset := by
        -- from the error branch of skip the cursor did not advance
        rw [skip] at hs
        cases hf : flush w with
        | panic => rw [hf] at hs; exact absurd hs (by simp)
        | ret wf =>
          rw [hf] at hs
          dsimp only at hs
          have hF := flush_frame hf
          by_cases h1 : ¬ wf.byte_offset < wf.max_bytes
          · rw [if_pos h1] at hs; exact absurd hs (by simp)
          · rw [if_neg h1] at hs
            by_cases h2 : wf.byte_offset + nb > wf.max_bytes
            · rw [if_pos h2] at hs
              injection hs with hs'
              cases hs'
              exact hF.2.2.2.2.1
            · rw [if_neg h2] at hs
              injection hs with hs'
              exact absurd (congrArg Prod.fst hs') (by simp)
      refine ⟨hS.1, hS.2.1, hS.2.2.1, hS.2.2.2.1, hS.2.2.2.2.1, by omega, ?_⟩
      intro p hpf _
      exact hS.2.2.2.2.2.2 p hpf
    | ok off =>
      dsimp only at h
      injection h with h'
      obtain ⟨hb, hw⟩ := Prod.mk.inj h'
      subst hw
      have hok := hS.2.2.2.2.2.1 off rfl
      have hwl : off + (leBytes nb val).length ≤ ws.buffer.length := by
        rw [leBytes_length, hS.2.1]; omega
      refine ⟨hS.1, ?_, hS.2.2.1, hS.2.2.2.1, ?_, ?_, ?_⟩
      · dsimp only
        rw [writeBytes_length hwl]
        exact hS.2.1
      · dsimp only; omega
      · dsimp only; omega
      · intro p hpf hout
        dsimp only
        rw [writeBytes_getD_frame p hwl (by rw [leBytes_length]; omega)]
        exact hS.2.2.2.2.2.2 p hpf

/-- put_aligned_offset writes only the nb bytes at its absolute offset
and never moves the cursor. -/
theorem put_aligned_offset_frame2 {w : BitWriter} {val nb off : Nat} {b : Bool}
    {w1 : BitWriter} (h : put_aligned_offset w val nb off = .ret (b, w1)) :
    w1.max_bytes = w.max_bytes ∧ w1.buffer.length = w.buffer.length ∧
    w1.bit_offset = w.bit_offset ∧ w1.buffered_values = w.buffered_values ∧
    w1.byte_offset = w.byte_offset ∧
    ∀ p, (p < off ∨ off + nb ≤ p) → w1.buffer.getD p 0 = w.buffer.getD p 0 := by
  rw [put_aligned_offset] at h
  by_cases h1 : nb + off > w.max_bytes
  · rw [if_pos h1] at h
    injection h with h'
    obtain ⟨hb, hw⟩ := Prod.mk.inj h'
    subst hw
    exact ⟨rfl, rfl, rfl, rfl, rfl, fun p _ => rfl⟩
  · rw [if_neg h1] at h
    by_cases h2 : off + nb ≤ w.buffer.length
    · rw [if_pos h2] at h
      injection h with h'
      obtain ⟨hb, hw⟩ := Prod.mk.inj h'
      subst hw
      have hwl : off + (leBytes nb val).length ≤ w.buffer.length := by
        rw [leBytes_length]; omega
      refine ⟨rfl, writeBytes_length hwl, rfl, rfl, rfl, ?_⟩
      intro p hp
      exact writeBytes_getD_frame p hwl (by rw [leBytes_length]; omega)
    · rw [if_neg h2] at h
      exact absurd h (by simp)

/-- put_value stages bits at the bit cursor and commits only the eight
bytes holding them when the staging register fills. -/
theorem put_value_frame {w : BitWriter} {v n : Nat} {b : Bool} {w1 : BitWriter}
    (hbit : w.bit_offset < 64) (hbv : w.buffered_values < 2 ^ w.bit_offset)
    (h : put_value w v n = .ret (b, w1)) :
    w1.max_bytes = w.max_bytes ∧ w1.buffer.length = w.buffer.length ∧
    w1.bit_offset < 64 ∧ w1.buffered_values < 2 ^ w1.bit_offset ∧
    ∀ p, pendingFree w p →
      (8 * w.byte_offset + w.bit_offset + n ≤ 8 * p ∨
        8 * p + 8 ≤ 8 * w.byte_offset + w.bit_offset) →
      w1.buffer.getD p 0 = w.buffer.getD p 0 ∧ pendingFree w1 p := by
  rw [put_value] at h
  by_cases ha1 : ¬ n ≤ 32
  · rw [if_pos ha1] at h; exact absurd h (by simp)
  rw [if_neg ha1] at h
  by_cases ha2 : ¬ v >>> n = 0
  · rw [if_pos ha2] at h; exact absurd h (by simp)
  rw [if_neg ha2] at h
  have hvn : v < 2 ^ n := by
    have h0 : v >>> n = 0 := of_not_not ha2
    rw [Nat.shiftRight_eq_div_pow] at h0
    have hpos : 0 < 2 ^ n := Nat.pos_pow_of_pos n (by omega)
    by_contra hge
    have := (Nat.one_le_div_iff hpos).mpr (Nat.le_of_not_lt hge)
    omega
  by_cases hg : w.byte_offset * 8 + w.bit_offset + n > w.max_bytes * 8
  · rw [if_pos hg] at h
    injection h with h'
    obtain ⟨hb, hw⟩ := Prod.mk.inj h'
    subst hw
    exact ⟨rfl, rfl, hbit, hbv, fun p hpf _ => ⟨rfl, hpf⟩⟩
  rw [if_neg hg] at h
  dsimp only at h
  have hshl : v <<< w.bit_offset = v * 2 ^ w.bit_offset := Nat.shiftLeft_eq v _
  by_cases hc : 64 ≤ w.bit_offset + n
  · rw [if_pos hc] at h
    by_cases hc2 : w.byte_offset + 8 ≤ w.buffer.length ∧ w.bit_offset + n - 64 < 64
    · rw [if_pos hc2] at h
      injection h with h'
      obtain ⟨hb, hw⟩ := Prod.mk.inj h'
      subst hw
      have hbv1 : v >>> (n - (w.bit_offset + n - 64)) < 2 ^ (w.bit_offset + n - 64) := by
        rw [Nat.shiftRight_eq_div_pow]
        have hsplit : 2 ^ n = 2 ^ (n - (w.bit_offset + n - 64)) * 2 ^ (w.bit_offset + n - 64) := by
          rw [← pow_add]
          congr 1
          omega
        have hpos : 0 < 2 ^ (n - (w.bit_offset + n - 64)) :=
          Nat.pos_pow_of_pos _ (by omega)
        rw [Nat.div_lt_iff_lt_mul hpos, Nat.mul_comm, ← hsplit]
        exact hvn
      refine ⟨rfl, ?_, by dsimp only; omega, hbv1, ?_⟩
      · dsimp only
        rw [writeBytes_length (by rw [leBytes_length]; exact hc2.1)]
      · intro p hpf hout
        have hp8 : p < w.byte_offset ∨ w.byte_offset + 8 ≤ p := by
          unfold pendingFree at hpf
          omega
        constructor
        · dsimp only
          rw [writeBytes_getD_frame p (by rw [leBytes_length]; exact hc2.1)
            (by rw [leBytes_length]; omega)]
        · unfold pendingFree at hpf ⊢
          dsimp only
          omega
    · rw [if_neg hc2] at h
      exact absurd h (by simp)
  · rw [if_neg hc] at h
    injection h with h'
    obtain ⟨hb, hw⟩ := Prod.mk.inj h'
    subst hw
    have hmod : (v <<< w.bit_offset) % 2 ^ 64 = v * 2 ^ w.bit_offset := by
      rw [hshl]
      have : v * 2 ^ w.bit_offset < 2 ^ 64 := by
        calc v * 2 ^ w.bit_offset < 2 ^ n * 2 ^ w.bit_offset :=
              (Nat.mul_lt_mul_right (Nat.pos_pow_of_pos _ (by omega))).mpr hvn
          _ = 2 ^ (n + w.bit_offset) := by rw [pow_add]
          _ ≤ 2 ^ 64 := Nat.pow_le_pow_right (by omega) (by omega)
      exact Nat.mod_eq_of_lt this
    have hbv1 : w.buffered_values ||| (v <<< w.bit_offset) % 2 ^ 64
        < 2 ^ (w.bit_offset + n) := by
      rw [hmod]
      apply Nat.or_lt_two_pow
      · exact lt_of_lt_of_le hbv (Nat.pow_le_pow_right (by omega) (by omega))
      · calc v * 2 ^ w.bit_offset < 2 ^ n * 2 ^ w.bit_offset :=
              (Nat.mul_lt_mul_right (Nat.pos_pow_of_pos _ (by omega))).mpr hvn
          _ = 2 ^ (n + w.bit_offset) := by rw [pow_add]
          _ ≤ 2 ^ (w.bit_offset + n) := by rw [Nat.add_comm]
    refine ⟨rfl, rfl, by dsimp only; omega, hbv1, ?_⟩
    intro p hpf hout
    refine ⟨rfl, ?_⟩
    unfold pendingFree at hpf ⊢
    dsimp only
    omega

/-- put_vlq_int writes only the byte-aligned cursor range holding the
VLQ bytes of v (an over-approximation covering early failures). -/
theorem put_vlq_frame : ∀ (v : Nat) {w : BitWriter} {b : Bool} {w1 : BitWriter},
    w.buffer.length = w.max_bytes → put_vlq_int w v = .ret (b, w1) →
    w1.max_bytes = w.max_bytes ∧ w1.buffer.length = w1.max_bytes ∧
    w1.bit_offset = 0 ∧ w1.buffered_values = 0 ∧
    ∀ p, pendingFree w p →
      (p < w.byte_offset + ceil8 w.bit_offset ∨
        w.byte_offset + ceil8 w.bit_offset + (vlqBytes v).length ≤ p) →
      w1.buffer.getD p 0 = w.buffer.getD p 0 := by
  intro v
  induction v using Nat.strong_induction_on with
  | _ v ih =>
    intro w b w1 hlen h
    by_cases hm : v &&& 0xFFFFFFFFFFFFFF80 ≠ 0
    · rw [put_vlq_int, dif_pos hm] at h
      have hlt : v >>> 7 < v := by
        have h128 := le_of_vlq_mask_ne hm
        rw [Nat.shiftRight_eq_div_pow]
        exact Nat.div_lt_self (by omega) (by norm_num)
      cases hpa : put_aligned w ((v &&& 0x7F) ||| 0x80) 1 with
      | panic => rw [hpa] at h; exact absurd h (by simp)
      | ret pr =>
        obtain ⟨b1, wa⟩ := pr
        rw [hpa] at h
        dsimp only at h
        cases hrec : put_vlq_int wa (v >>> 7) with
        | panic => rw [hrec] at h; exact absurd h (by simp)
        | ret pr2 =>
          obtain ⟨b2, w2'⟩ := pr2
          rw [hrec] at h
          dsimp only at h
          injection h with h'
          obtain ⟨hb, hw⟩ := Prod.mk.inj h'
          subst hw
          have hPA := put_aligned_frame hlen hpa
          have hREC := ih (v >>> 7) hlt hPA.2.1 hrec
          have hlenv : (vlqBytes v).length = 1 + (vlqBytes (v >>> 7)).length := by
            rw [vlqBytes_large hm, List.length_cons]
            omega
          refine ⟨by rw [hREC.1, hPA.1], hREC.2.1, hREC.2.2.1, hREC.2.2.2.1, ?_⟩
          intro p hpf hout
          have hcw : ceil8 wa.bit_offset = 0 := by rw [hPA.2.2.1, ceil8_zero]
          have hfr2 := hREC.2.2.2.2 p (pendingFree_of_bit0 hPA.2.2.1 p)
            (by rw [hcw]; omega)
          rw [hfr2]
          exact hPA.2.2.2.2.2.2 p hpf (by omega)
    · rw [put_vlq_int, dif_neg hm] at h
      have hPA := put_aligned_frame hlen h
      have hlenv : (vlqBytes v).length = 1 := by
        rw [vlqBytes, dif_neg hm]
        rfl
      refine ⟨hPA.1, hPA.2.1, hPA.2.2.1, hPA.2.2.2.1, ?_⟩
      intro p hpf hout
      exact hPA.2.2.2.2.2.2 p hpf (by omega)

/-- One operation step: the base invariant is preserved and bytes
outside both the op's requested range and the pending bits keep their
value (and stay clear of the new pending bits). -/
theorem runWOp_frame {w w1 : BitWriter} {op : WOp}
    (hB : WBase w) (h : runWOp w op = .ret w1) :
    WBase w1 ∧ w1.max_bytes = w.max_bytes ∧
    ∀ p, pendingFree w p →
      ((opRange w op).2 ≤ 8 * p ∨ 8 * p + 8 ≤ (opRange w op).1) →
      w1.buffer.getD p 0 = w.buffer.getD p 0 ∧ pendingFree w1 p := by
  obtain ⟨hbit, hbv, hlen⟩ := hB
  cases op with
  | putValue v n =>
    simp only [runWOp] at h
    cases hpv : put_value w v n with
    | panic => rw [hpv] at h; exact absurd h (by simp)
    | ret pr =>
      obtain ⟨b, wv⟩ := pr
      rw [hpv] at h
      dsimp only at h
      injection h with h'
      subst h'
      have hPV := put_value_frame hbit hbv hpv
      refine ⟨⟨hPV.2.2.1, hPV.2.2.2.1, by rw [hPV.2.1, hlen, hPV.1]⟩, hPV.1, ?_⟩
      intro p hpf hout
      simp only [opRange] at hout
      exact hPV.2.2.2.2 p hpf hout
  | putAligned val nb =>
    simp only [runWOp] at h
    cases hpa : put_aligned w val nb with
    | panic => rw [hpa] at h; exact absurd h (by simp)
    | ret pr =>
      obtain ⟨b, wa⟩ := pr
      rw [hpa] at h
      dsimp only at h
      injection h with h'
      subst h'
      have hPA := put_aligned_frame hlen hpa
      refine ⟨⟨by rw [hPA.2.2.1]; omega, by rw [hPA.2.2.1, hPA.2.2.2.1]; norm_num,
        hPA.2.1⟩, hPA.1, ?_⟩
      intro p hpf hout
      simp only [opRange] at hout
      exact ⟨hPA.2.2.2.2.2.2 p hpf (by omega), pendingFree_of_bit0 hPA.2.2.1 p⟩
  | putAlignedOffset val nb off =>
    simp only [runWOp] at h
    cases hpo : put_aligned_offset w val nb off with
    | panic => rw [hpo] at h; exact absurd h (by simp)
    | ret pr =>
      obtain ⟨b, wo⟩ := pr
      rw [hpo] at h
      dsimp only at h
      injection h with h'
      subst h'
      have hPO := put_aligned_offset_frame2 hpo
      refine ⟨⟨by rw [hPO.2.2.1]; exact hbit, by rw [hPO.2.2.1, hPO.2.2.2.1]; exact hbv,
        by rw [hPO.2.1, hlen, hPO.1]⟩, hPO.1, ?_⟩
      intro p hpf hout
      simp only [opRange] at hout
      refine ⟨hPO.2.2.2.2.2 p (by omega), ?_⟩
      unfold pendingFree at hpf ⊢
      rw [hPO.2.2.2.2.1, hPO.2.2.1]
      exact hpf
  | putVlq v =>
    simp only [runWOp] at h
    cases hpq : put_vlq_int w v with
    | panic => rw [hpq] at h; exact absurd h (by simp)
    | ret pr =>
      obtain ⟨b, wq⟩ := pr
      rw [hpq] at h
      dsimp only at h
      injection h with h'
      subst h'
      have hPQ := put_vlq_frame v hlen hpq
      refine ⟨⟨by rw [hPQ.2.2.1]; omega, by rw [hPQ.2.2.1, hPQ.2.2.2.1]; norm_num,
        hPQ.2.1⟩, hPQ.1, ?_⟩
      intro p hpf hout
      simp only [opRange] at hout
      exact ⟨hPQ.2.2.2.2 p hpf (by omega), pendingFree_of_bit0 hPQ.2.2.1 p⟩
  | skipOp n =>
    simp only [runWOp] at h
    cases hs : skip w n with
    | panic => rw [hs] at h; exact absurd h (by simp)
    | ret pr =>
      obtain ⟨res, ws⟩ := pr
      rw [hs] at h
      dsimp only at h
      injection h with h'
      subst h'
      have hS := skip_frame hlen hs
      refine ⟨⟨by rw [hS.2.2.1]; omega, by rw [hS.2.2.1, hS.2.2.2.1]; norm_num,
        hS.2.1⟩, hS.1, ?_⟩
      intro p hpf _
      exact ⟨hS.2.2.2.2.2.2 p hpf, pendingFree_of_bit0 hS.2.2.1 p⟩

/-- Over a whole run, a byte outside every recorded range and the
initial pending bits keeps its value. -/
theorem runWOps_frame : ∀ (ops : List WOp) (w w2 : BitWriter) (F : List (Nat × Nat)),
    runWOps w ops = some (w2, F) → WBase w →
    WBase w2 ∧ w2.max_bytes = w.max_bytes ∧
    ∀ p, untouchedByte F p → pendingFree w p →
      w2.buffer.getD p 0 = w.buffer.getD p 0 ∧ pendingFree w2 p := by
  intro ops
  induction ops with
  | nil =>
    intro w w2 F h hB
    simp only [runWOps, Option.some.injEq, Prod.mk.injEq] at h
    obtain ⟨hw, hF⟩ := h
    subst hw hF
    exact ⟨hB, rfl, fun p _ hpf => ⟨rfl, hpf⟩⟩
  | cons op t ih =>
    intro w w2 F h hB
    simp only [runWOps] at h
    cases hop : runWOp w op with
    | panic => rw [hop] at h; exact absurd h (by simp)
    | ret w1 =>
      rw [hop] at h
      dsimp only at h
      cases hrest : runWOps w1 t with
      | none => rw [hrest] at h; exact absurd h (by simp)
      | some pr =>
        obtain ⟨w2', F'⟩ := pr
        rw [hrest] at h
        dsimp only at h
        simp only [Option.some.injEq, Prod.mk.injEq] at h
        obtain ⟨hw2, hF⟩ := h
        subst hw2 hF
        have hstep := runWOp_frame hB hop
        have hrec := ih w1 w2' F' hrest hstep.1
        refine ⟨hrec.1, by rw [hrec.2.1, hstep.2.1], ?_⟩
        intro p hU hpf
        have hU0 : (opRange w op).2 ≤ 8 * p ∨ 8 * p + 8 ≤ (opRange w op).1 :=
          hU _ (List.mem_cons_self _ _)
        have hUF : untouchedByte F' p := fun r hr => hU r (List.mem_cons_of_mem _ hr)
        have hs := hstep.2.2 p hpf hU0
        have hr2 := hrec.2.2 p hUF hs.2
        exact ⟨by rw [hr2.1, hs.1], hr2.2⟩

theorem getD_replicate_zero (M p : Nat) : (List.replicate M (0 : Nat)).getD p 0 = 0 := by
  rw [List.getD_eq_getElem?_getD, List.getElem?_replicate]
  by_cases h : p < M
  · rw [if_pos h]; rfl
  · rw [if_neg h]; rfl

theorem getD_take_eq {l : List Nat} (k p : Nat) :
    (l.take k).getD p 0 = if p < k then l.getD p 0 else 0 := by
  rw [List.getD_eq_getElem?_getD, List.getElem?_take]
  by_cases h : p < k
  · rw [if_pos h, if_pos h, List.getD_eq_getElem?_getD]
  · rw [if_neg h, if_neg h]; rfl

/-- C10: the writer's buffer is zero-filled at construction and reset
to zeros by consume, and every operation writes only the bytes it is
asked to write; hence any byte outside every operation's requested
range — in particular bytes merely reserved by skip and never patched —
reads back as 0x00 in the buffer returned by consume. -/
theorem c10_reserved_bytes_zero (M : Nat) (ops : List WOp) (w2 : BitWriter)
    (F : List (Nat × Nat)) (buf : List Nat) (w3 : BitWriter)
    (hrun : runWOps (BitWriter.new M) ops = some (w2, F))
    (hcons : consume w2 = .ret (buf, w3)) :
    (BitWriter.new M).buffer = List.replicate M 0 ∧
    w3.buffer = List.replicate w2.max_bytes 0 ∧
    ∀ p, untouchedByte F p → buf.getD p 0 = 0 := by
  have hB0 : WBase (BitWriter.new M) :=
    ⟨(by decide : (0 : Nat) < 64), (by decide : (0 : Nat) < 2 ^ 0),
      List.length_replicate _ _⟩
  have hfr := runWOps_frame ops (BitWriter.new M) w2 F hrun hB0
  rw [consume] at hcons
  cases hfl : flush w2 with
  | panic => rw [hfl] at hcons; exact absurd hcons (by simp)
  | ret w4 =>
    rw [hfl] at hcons
    dsimp only at hcons
    injection hcons with h'
    obtain ⟨hbuf, hw3⟩ := Prod.mk.inj h'
    subst hbuf hw3
    have hF := flush_frame hfl
    refine ⟨rfl, by rw [hF.1]; rfl, ?_⟩
    intro p hU
    have hpf0 : pendingFree (BitWriter.new M) p := pendingFree_of_bit0 rfl p
    have h2 := hfr.2.2 p hU hpf0
    have h4 : w4.buffer.getD p 0 = 0 := by
      rw [hF.2.2.2.2.2.2 p h2.2, h2.1]
      exact getD_replicate_zero M p
    rw [getD_take_eq]
    by_cases hp : p < w4.byte_offset
    · rw [if_pos hp]; exact h4
    · rw [if_neg hp]

theorem c10_reserved_bytes_zero_witness :
    runWOps (BitWriter.new 3) [.skipOp 2, .putAlignedOffset 171 1 1]
      = some (BitWriter.mk [0, 171, 0] 3 0 2 0, [(0, 0), (8, 16)]) ∧
    consume (BitWriter.mk [0, 171, 0] 3 0 2 0) = .ret ([0, 171], BitWriter.new 3) ∧
    ((BitWriter.new 3).buffer = List.replicate 3 0 ∧
      (BitWriter.new 3).buffer
        = List.replicate (BitWriter.mk [0, 171, 0] 3 0 2 0).max_bytes 0 ∧
      ∀ p, untouchedByte [(0, 0), (8, 16)] p → ([0, 171] : List Nat).getD p 0 = 0) :=
  ⟨rfl, rfl,
    c10_reserved_bytes_zero 3 [.skipOp 2, .putAlignedOffset 171 1 1]
      (BitWriter.mk [0, 171, 0] 3 0 2 0) [(0, 0), (8, 16)] [0, 171]
      (BitWriter.new 3) rfl rfl⟩

end ParquetRS
